import Mathlib

/-!
Verification of the Jelly package manager core (TypeScript sources) against
its natural-language specification.

The development shallow-embeds the relevant functions of the repository:

* `src/lib/VersionResolver.ts` — `resolveVersion`, `findBestMatch`,
  `resolveDependencyTree`, `findCompatibleVersion`, `isVersionCompatible`;
* `src/lib/managers/WallyAPI.ts` — the HTTP header constants and the
  requests built by `searchPackages` / `getPackageInfo` / downloads;
* `src/lib/PackageDownloader.ts` — `extractPackage`'s operation trace,
  `generatePackageIndex`'s alias-shim emission, `getLatestVersion`,
  `compareVersions`, `getInstalledPackages`'s directory-name split;
* `LockfileManager` — `readLockfile`, `writeLockfile`, `generateLockfile`,
  `resolveDependencies`, `validateLockfile`.

Versions and ranges are embedded as inductive data; range satisfaction
follows the node `semver` library semantics (which the TypeScript calls
into): a version carrying a pre-release tag satisfies a range only when
some comparator of the range names a pre-release of the same
major.minor.patch triple.  JavaScript `Map` / object state is embedded as
association lists in insertion order; the unbounded recursion of
`resolveDependencyTree` and `resolveDependencies` is bounded by an
explicit fuel parameter (results are stated for every fuel or quoted at a
fuel large enough for the concrete input).
-/

namespace Jelly

open Batteries

/-! ## Association lists (JavaScript `Map` / object embedding)

JS `Map.set` updates an existing key in place (keeping its position) and
appends a missing key; object spread `{...a, ...b}` does the same for each
key of `b` in turn. -/

/-- Lookup in an association list, first (and by construction only) match. -/
def assocLookup (l : List (String × α)) (k : String) : Option α :=
  match l with
  | [] => none
  | (k1, v1) :: rest => if k1 = k then some v1 else assocLookup rest k

/-- JS `Map.set` / object property assignment: update in place or append. -/
def assocSet (l : List (String × α)) (k : String) (v : α) : List (String × α) :=
  match l with
  | [] => [(k, v)]
  | (k1, v1) :: rest =>
    if k1 = k then (k, v) :: rest else (k1, v1) :: assocSet rest k v

/-- JS object spread `{...a, ...b}`: a fresh object receiving every
binding of `a` then every binding of `b` in order (later keys override in
place). -/
def mergeObj (a b : List (String × α)) : List (String × α) :=
  (a ++ b).foldl (fun acc kv => assocSet acc kv.1 kv.2) []

theorem assocLookup_assocSet_self (l : List (String × α)) (k : String) (v : α) :
    assocLookup (assocSet l k v) k = some v := by
  induction l with
  | nil => simp [assocSet, assocLookup]
  | cons hd tl ih =>
    by_cases h : hd.1 = k
    · simp [assocSet, assocLookup, h]
    · simp [assocSet, assocLookup, h, ih]

theorem assocLookup_assocSet_ne (l : List (String × α)) (k k2 : String) (v : α)
    (h : k ≠ k2) : assocLookup (assocSet l k v) k2 = assocLookup l k2 := by
  induction l with
  | nil => simp [assocSet, assocLookup, h]
  | cons hd tl ih =>
    by_cases h1 : hd.1 = k
    · simp [assocSet, assocLookup, h1, h]
    · by_cases h2 : hd.1 = k2 <;> simp [assocSet, assocLookup, h1, h2, Ne.symm h, ih]

/-! ## SemVer versions

A SemVer 2.0 version: a `major.minor.patch` triple plus an optional
pre-release tag, the tag a dot-separated list of numeric or alphanumeric
identifiers. -/

/-- Pre-release identifier: numeric (compared numerically, ranks below) or
alphanumeric (compared as ASCII strings). -/
inductive PreId where
  | num (n : Nat)
  | str (s : String)
deriving DecidableEq, Repr

/-- SemVer version. `pre = []` means a normal release. -/
structure Version where
  major : Nat
  minor : Nat
  patch : Nat
  pre : List Jelly.PreId := []
deriving DecidableEq, Repr

/-- SemVer precedence of single pre-release identifiers: numeric below
alphanumeric, numerics numeric, alphanumerics lexicographic. -/
def comparePreId : PreId → PreId → Ordering
  | .num a, .num b => compare a b
  | .num _, .str _ => .lt
  | .str _, .num _ => .gt
  | .str a, .str b => compare a b

/-- Lexicographic comparison of identifier lists; a strict prefix ranks lower. -/
def compareList (cmp : α → α → Ordering) : List α → List α → Ordering
  | [], [] => .eq
  | [], _ :: _ => .lt
  | _ :: _, [] => .gt
  | a :: as, b :: bs => (cmp a b).then (compareList cmp as bs)

instance instOrientedCmpComparePreId : OrientedCmp comparePreId where
  symm a b := by
    cases a <;> cases b
    · exact @OrientedCmp.symm Nat compare _ _ _
    · rfl
    · rfl
    · exact @OrientedCmp.symm String compare _ _ _

instance instTransCmpComparePreId : TransCmp comparePreId where
  le_trans {x y z} h1 h2 := by
    cases x <;> cases y <;> cases z <;>
      simp_all [comparePreId] <;>
      exact TransCmp.le_trans h1 h2

instance instOrientedCmpCompareList (cmp : α → α → Ordering) [OrientedCmp cmp] :
    OrientedCmp (compareList cmp) where
  symm a b := by
    induction a generalizing b with
    | nil => cases b <;> simp [compareList, Ordering.swap]
    | cons x xs ih =>
      cases b with
      | nil => simp [compareList, Ordering.swap]
      | cons y ys =>
        have hsymm : (cmp x y).swap = cmp y x := OrientedCmp.symm x y
        simp only [compareList, Ordering.swap_then, ih ys, hsymm]

instance instTransCmpCompareList (cmp : α → α → Ordering) [TransCmp cmp] :
    TransCmp (compareList cmp) where
  le_trans {a b c} h1 h2 := by
    induction a generalizing b c with
    | nil =>
      cases b with
      | nil => cases c <;> simp [compareList]
      | cons y ys => cases c <;> simp [compareList]
    | cons x xs ih =>
      cases b with
      | nil => simp [compareList] at h1
      | cons y ys =>
        cases c with
        | nil => simp [compareList] at h2
        | cons z zs =>
          simp only [compareList, ne_eq, Ordering.then_eq_gt, not_or, not_and] at h1 h2 ⊢
          refine ⟨TransCmp.le_trans h1.1 h2.1, fun e1 e2 => ?_⟩
          match exy : cmp x y with
          | .gt => exact h1.1 exy
          | .eq =>
            exact ih (h1.2 exy) (h2.2 (TransCmp.cmp_congr_left exy ▸ e1)) e2
          | .lt =>
            exact h2.1 (OrientedCmp.cmp_eq_gt.2
              (TransCmp.cmp_congr_left e1 ▸ exy))

/-- SemVer precedence of the pre-release component: a release (`[]`)
outranks every pre-release of the same triple; two pre-releases compare
lexicographically. -/
def comparePreRel (a b : List PreId) : Ordering :=
  compareLex (Ordering.byKey List.isEmpty compare) (compareList comparePreId) a b

instance instTransCmpComparePreRel : TransCmp comparePreRel :=
  inferInstanceAs (TransCmp (compareLex _ _))

/-- SemVer 2.0 precedence: major, minor, patch numerically, then the
pre-release rule. This is the ordering used by node `semver`'s `compare`
and `maxSatisfying`. -/
def compareVer : Version → Version → Ordering :=
  compareLex (Ordering.byKey Version.major compare)
    (compareLex (Ordering.byKey Version.minor compare)
      (compareLex (Ordering.byKey Version.patch compare)
        (Ordering.byKey Version.pre comparePreRel)))

instance instTransCmpCompareVer : TransCmp compareVer :=
  inferInstanceAs (TransCmp (compareLex _ _))

/-! ## SemVer ranges and node-semver satisfaction

The TypeScript works on range strings and delegates satisfaction to the
node `semver` library (`semver.satisfies`, `semver.maxSatisfying`).  The
range forms the code and spec name (exact, caret, tilde, `>=`, `<=`,
wildcard `*`) are embedded as an inductive type; `normalizeVersionRange`
passes each of these forms through unchanged, so it is the identity on
this embedding.  Satisfaction desugars a range to node-semver's comparator
set and applies node-semver's pre-release rule: a version carrying a
pre-release tag satisfies the set only if some comparator names a
pre-release of the same `major.minor.patch` triple. -/

/-- Version-range forms handled by `normalizeVersionRange` and the spec. -/
inductive RangeT where
  | exact (v : Version)
  | caret (v : Version)
  | tilde (v : Version)
  | ge (v : Version)
  | le (v : Version)
  | wildcard
deriving DecidableEq, Repr

/-- Comparator operators of node-semver's desugared ranges. -/
inductive CmpOp where
  | eqC
  | geC
  | leC
  | ltC
deriving DecidableEq, Repr

/-- One node-semver comparator, e.g. `>=1.2.3` or `<2.0.0-0`. -/
structure Comparator where
  op : CmpOp
  ver : Version
deriving DecidableEq, Repr

/-- Exclusive upper bound of a caret range: `^1.2.3 ⇒ <2.0.0-0`,
`^0.2.3 ⇒ <0.3.0-0`, `^0.0.3 ⇒ <0.0.4-0` (node-semver attaches the `-0`
pre-release floor to the bound). -/
def caretHigh (v : Version) : Version :=
  if v.major > 0 then ⟨v.major + 1, 0, 0, [.num 0]⟩
  else if v.minor > 0 then ⟨0, v.minor + 1, 0, [.num 0]⟩
  else ⟨0, 0, v.patch + 1, [.num 0]⟩

/-- Desugar a range to node-semver's comparator set; `*` desugars to the
empty comparator (match-any) set. -/
def desugarRange : RangeT → List Comparator
  | .exact v => [⟨.eqC, v⟩]
  | .caret v => [⟨.geC, v⟩, ⟨.ltC, caretHigh v⟩]
  | .tilde v => [⟨.geC, v⟩, ⟨.ltC, ⟨v.major, v.minor + 1, 0, [.num 0]⟩⟩]
  | .ge v => [⟨.geC, v⟩]
  | .le v => [⟨.leC, v⟩]
  | .wildcard => []

/-- Does `v` pass one comparator (by SemVer precedence)? -/
def cmpHolds (v : Version) (c : Comparator) : Bool :=
  match c.op, compareVer v c.ver with
  | .eqC, .eq => true
  | .eqC, _ => false
  | .geC, .lt => false
  | .geC, _ => true
  | .leC, .gt => false
  | .leC, _ => true
  | .ltC, .lt => true
  | .ltC, _ => false

/-- Same `major.minor.patch` triple. -/
def sameTriple (a b : Version) : Bool :=
  a.major == b.major && a.minor == b.minor && a.patch == b.patch

/-- node-semver `semver.satisfies v r` (default options): all comparators
hold, and a pre-release version additionally needs a comparator carrying a
pre-release of its own triple. -/
def satisfies (v : Version) (r : RangeT) : Bool :=
  let cs := desugarRange r
  cs.all (cmpHolds v) &&
    (v.pre.isEmpty || cs.any fun c => !c.ver.pre.isEmpty && sameTriple c.ver v)

/-- node-semver `maxSatisfying` over an already-filtered list: fold keeping
the current maximum, replacing only on strictly greater. -/
def maxBySemver (x : Version) (xs : List Version) : Version :=
  xs.foldl (fun m v => match compareVer m v with | .lt => v | _ => m) x

/-- `VersionResolver.findBestMatch(versionRange, availableVersions)`:
filter the versions satisfying the range, then `semver.maxSatisfying`
(the `|| satisfyingVersions[0]` fallback never fires on this embedding
since every filtered version satisfies the range). -/
def findBestMatch (r : RangeT) (avail : List Version) : Option Version :=
  match avail.filter (fun v => satisfies v r) with
  | [] => none
  | x :: xs => some (maxBySemver x xs)

theorem maxBySemver_mem (x : Version) (xs : List Version) :
    maxBySemver x xs ∈ x :: xs := by
  induction xs generalizing x with
  | nil => simp [maxBySemver]
  | cons y ys ih =>
    simp only [maxBySemver, List.foldl_cons]
    cases hcmp : compareVer x y with
    | lt => exact List.mem_cons_of_mem _ (ih y)
    | eq =>
      exact List.mem_cons.2 (Or.imp id (List.mem_cons_of_mem y) (List.mem_cons.1 (ih x)))
    | gt =>
      exact List.mem_cons.2 (Or.imp id (List.mem_cons_of_mem y) (List.mem_cons.1 (ih x)))

theorem maxBySemver_not_lt (x : Version) (xs : List Version) :
    ∀ w ∈ x :: xs, compareVer (maxBySemver x xs) w ≠ .lt := by
  induction xs generalizing x with
  | nil =>
    intro w hw
    have hwx : w = x := by simpa using hw
    subst hwx
    have hrefl : compareVer w w = Ordering.eq := OrientedCmp.cmp_refl
    simp [maxBySemver, hrefl]
  | cons y ys ih =>
    intro w hw
    simp only [maxBySemver, List.foldl_cons]
    cases hcmp : compareVer x y with
    | lt =>
      have hres : ∀ u ∈ y :: ys, compareVer (maxBySemver y ys) u ≠ .lt := ih y
      rcases List.mem_cons.1 hw with rfl | hw1
      · intro hlt
        exact hres y (List.mem_cons_self _ _)
          (TransCmp.lt_trans hlt hcmp)
      · exact hres w hw1
    | eq =>
      have hres : ∀ u ∈ x :: ys, compareVer (maxBySemver x ys) u ≠ .lt := ih x
      rcases List.mem_cons.1 hw with rfl | hw1
      · exact hres w (List.mem_cons_self _ _)
      · rcases List.mem_cons.1 hw1 with rfl | hw2
        · exact TransCmp.ge_trans
            (hres x (List.mem_cons_self _ _)) (by simp [hcmp])
        · exact hres w (List.mem_cons_of_mem _ hw2)
    | gt =>
      have hres : ∀ u ∈ x :: ys, compareVer (maxBySemver x ys) u ≠ .lt := ih x
      rcases List.mem_cons.1 hw with rfl | hw1
      · exact hres w (List.mem_cons_self _ _)
      · rcases List.mem_cons.1 hw1 with rfl | hw2
        · exact TransCmp.ge_trans
            (hres x (List.mem_cons_self _ _)) (by simp [hcmp])
        · exact hres w (List.mem_cons_of_mem _ hw2)

/-- Soundness and maximality of `findBestMatch`: the result is an
available version, satisfies the range, and no available satisfying
version is strictly greater. -/
theorem findBestMatch_spec (r : RangeT) (avail : List Version) (v : Version)
    (h : findBestMatch r avail = some v) :
    v ∈ avail ∧ satisfies v r = true ∧
      ∀ w ∈ avail, satisfies w r = true → compareVer v w ≠ .lt := by
  unfold findBestMatch at h
  cases hf : avail.filter (fun v => satisfies v r) with
  | nil => rw [hf] at h; exact absurd h (by simp)
  | cons x xs =>
    rw [hf] at h
    injection h with h
    subst h
    have hmem : maxBySemver x xs ∈ x :: xs := maxBySemver_mem x xs
    have hmemf : maxBySemver x xs ∈ avail.filter (fun v => satisfies v r) :=
      hf ▸ hmem
    refine ⟨List.mem_of_mem_filter hmemf, (List.mem_filter.1 hmemf).2, ?_⟩
    intro w hw hsat
    have hwf : w ∈ avail.filter (fun v => satisfies v r) :=
      List.mem_filter.2 ⟨hw, hsat⟩
    exact maxBySemver_not_lt x xs w (hf ▸ hwf)

/-- On this embedding `*` admits exactly the versions without a
pre-release tag (node-semver's default behavior). -/
theorem satisfies_wildcard (v : Version) :
    satisfies v .wildcard = v.pre.isEmpty := by
  simp [satisfies, desugarRange]

/-! ## VersionResolver (`src/lib/VersionResolver.ts`)

The registry is a fixed snapshot `String → Option PackageInfo` (`none`
models `WallyAPI.getPackageInfo` throwing, e.g. a 404).  The in-memory
`packageCache` is semantically transparent against a fixed snapshot and
is therefore not threaded.  JS `Map`s become association lists in
insertion order, the unbounded recursion becomes fuel. -/

/-- One entry of `WallyPackageInfo.versions`: the version plus its
declared production and server dependency maps. -/
structure VersionEntry where
  version : Version
  dependencies : List (String × RangeT) := []
  serverDependencies : List (String × RangeT) := []
deriving DecidableEq, Repr

/-- Registry metadata for one package (`WallyPackageInfo`), versions in
the registry's order (descending by precedence for a well-formed
registry). -/
structure PackageInfo where
  versions : List VersionEntry
deriving DecidableEq, Repr

/-- Fixed registry snapshot: `none` models a failed metadata fetch. -/
def Registry := String → Option PackageInfo

/-- Result of `VersionResolver.resolveVersion`. -/
structure ResolvedVersion where
  version : Version
  packageInfo : PackageInfo
deriving DecidableEq, Repr

/-- Split a character list at the first occurrence of `c`. -/
def splitFirst (c : Char) : List Char → Option (List Char × List Char)
  | [] => none
  | x :: xs =>
    if x = c then some ([], xs)
    else
      match splitFirst c xs with
      | none => none
      | some (a, b) => some (x :: a, b)

/-- `WallyAPI.parsePackageName`: the regex
`^([^\/]+)\/([^@]+)(?:@(.+))?$` — scope up to the first `/`, name up to
the first `@` (the optional version suffix is dropped by the resolver);
`none` models the thrown format error. -/
def parsePkgName (s : String) : Option (String × String) :=
  match splitFirst '/' s.toList with
  | none => none
  | some (scopeC, rest) =>
    if scopeC.isEmpty then none
    else
      match splitFirst '@' rest with
      | none => if rest.isEmpty then none else some (⟨scopeC⟩, ⟨rest⟩)
      | some (nameC, verC) =>
        if nameC.isEmpty || verC.isEmpty then none else some (⟨scopeC⟩, ⟨nameC⟩)

/-- `VersionResolver.resolveVersion(scope, name, versionRange)` on the
joined `scope/name` key: fetch metadata, pick `findBestMatch` over the
available versions; `none` models the thrown errors (fetch failure or no
satisfying version). -/
def resolveVersionR (reg : Registry) (packageName : String) (r : RangeT) :
    Option ResolvedVersion :=
  match reg packageName with
  | none => none
  | some info =>
    match findBestMatch r (info.versions.map (·.version)) with
    | none => none
    | some v => some ⟨v, info⟩

/-- `VersionResolver.isVersionCompatible`: plain `semver.satisfies`. -/
def isVersionCompatible (v : Version) (r : RangeT) : Bool :=
  satisfies v r

/-- `VersionResolver.getVersionRange`: an exact version widened to `^v`. -/
def getVersionRange (v : Version) : RangeT :=
  .caret v

/-- `VersionResolver.findCompatibleVersion`: first registry-order version
satisfying all given ranges. -/
def findCompatibleVersion (reg : Registry) (packageName : String)
    (ranges : List RangeT) : Option Version :=
  match reg packageName with
  | none => none
  | some info =>
    (info.versions.map (·.version)).find? (fun v => ranges.all (fun r => satisfies v r))

/-- One `requiredBy / versionRange` record inside a `DependencyConflict`. -/
structure ConflictEntry where
  requiredBy : String
  versionRange : RangeT
deriving DecidableEq, Repr

/-- `DependencyConflict` of the resolver. -/
structure DependencyConflict where
  packageName : String
  conflicts : List ConflictEntry
  resolvedVersion : Option Version
deriving DecidableEq, Repr

/-- The resolver's find-or-create conflict recording: extend the first
conflict with this package name, else push a fresh one (whose
`resolvedVersion` is fixed at creation). -/
def addConflict (cs : List DependencyConflict) (pkg requiredBy : String)
    (r : RangeT) (resolved : Option Version) : List DependencyConflict :=
  match cs with
  | [] => [⟨pkg, [⟨requiredBy, r⟩], resolved⟩]
  | c :: rest =>
    if c.packageName = pkg then
      ⟨c.packageName, c.conflicts ++ [⟨requiredBy, r⟩], c.resolvedVersion⟩ :: rest
    else c :: addConflict rest pkg requiredBy r resolved

/-- `VersionResolver.resolveDependencyTree`, loop and recursion fused:
processes the requirement list in order, threading the (mutable in TS)
`visited` set and `dependencyTree` map and the current invocation's
conflict array; sub-dependency recursion starts with a fresh conflict
array whose result is appended (`conflicts.push(...subResult.conflicts)`).
`fuel` bounds the recursion depth (each step consumes one unit); every
statement below is for arbitrary fuel or at a fuel ample for its input. -/
def rdtGo (reg : Registry) :
    Nat → List (String × RangeT) → List String →
    List (String × ResolvedVersion) → List String → List DependencyConflict →
    List String × List (String × ResolvedVersion) × List DependencyConflict
  | 0, _, visited, tree, _, conflicts => (visited, tree, conflicts)
  | _ + 1, [], visited, tree, _, conflicts => (visited, tree, conflicts)
  | fuel + 1, (pkg, range) :: rest, visited, tree, chain, conflicts =>
    if pkg ∈ visited then
      -- already visited: possibly record a conflict, never touch the tree
      let conflicts1 :=
        match assocLookup tree pkg with
        | some existing =>
          if isVersionCompatible existing.version range then conflicts
          else addConflict conflicts pkg (String.intercalate " -> " chain) range
            (some existing.version)
        | none => conflicts
      rdtGo reg fuel rest visited tree chain conflicts1
    else
      let visited1 := pkg :: visited
      match parsePkgName pkg with
      | none => rdtGo reg fuel rest visited1 tree chain conflicts
      | some (scope, name) =>
        let key := scope ++ "/" ++ name
        match resolveVersionR reg key range with
        | none => rdtGo reg fuel rest visited1 tree chain conflicts
        | some resolved =>
          -- `none` models a throw inside the try block (skip this entry)
          let step : Option (List (String × ResolvedVersion) × List DependencyConflict) :=
            match assocLookup tree pkg with
            | some existing =>
              if existing.version ≠ resolved.version then
                match findCompatibleVersion reg key
                    [range, getVersionRange existing.version] with
                | some compatible =>
                  match resolveVersionR reg key (.exact compatible) with
                  | none => none
                  | some compatibleResolved =>
                    some (assocSet tree pkg compatibleResolved, conflicts)
                | none =>
                  some (tree, addConflict conflicts pkg
                    (String.intercalate " -> " chain) range (some existing.version))
              else some (assocSet tree pkg resolved, conflicts)
            | none => some (assocSet tree pkg resolved, conflicts)
          match step with
          | none => rdtGo reg fuel rest visited1 tree chain conflicts
          | some (tree1, conflicts1) =>
            match resolved.packageInfo.versions.find?
                (fun ve => decide (ve.version = resolved.version)) with
            | none => rdtGo reg fuel rest visited1 tree1 chain conflicts1
            | some versionInfo =>
              let subDeps := mergeObj versionInfo.dependencies
                versionInfo.serverDependencies
              if subDeps.isEmpty then
                rdtGo reg fuel rest visited1 tree1 chain conflicts1
              else
                match rdtGo reg fuel subDeps visited1 tree1 (chain ++ [pkg]) [] with
                | (visited2, tree2, subConflicts) =>
                  rdtGo reg fuel rest visited2 tree2 chain (conflicts1 ++ subConflicts)

/-- `resolveDependencyTree(dependencies)` with the default (fresh) mutable
state, returning the resolved map and the conflicts. -/
def resolveDependencyTree (reg : Registry) (fuel : Nat)
    (dependencies : List (String × RangeT)) :
    List (String × ResolvedVersion) × List DependencyConflict :=
  match rdtGo reg fuel dependencies [] [] [] [] with
  | (_, tree, conflicts) => (tree, conflicts)

/-- Invariant of a resolution state: every key of the dependency tree has
been visited.  Holds at the initial (empty) state and is maintained by
`rdtGo`; it is what makes the inner re-resolution branch unreachable. -/
def treeKeysVisited (tree : List (String × ResolvedVersion))
    (visited : List String) : Prop :=
  ∀ k : String, (assocLookup tree k).isSome = true → k ∈ visited

/-- Soundness of a resolution state: every resolved entry's version is
one of its package's registry versions. -/
def treeSound (tree : List (String × ResolvedVersion)) : Prop :=
  ∀ id e, assocLookup tree id = some e →
    e.version ∈ e.packageInfo.versions.map (·.version)

theorem treeKeysVisited_mono {tree : List (String × ResolvedVersion)}
    {visited : List String} (pkg : String)
    (h : treeKeysVisited tree visited) : treeKeysVisited tree (pkg :: visited) :=
  fun k hk => List.mem_cons_of_mem _ (h k hk)

theorem treeKeysVisited_assocSet {tree : List (String × ResolvedVersion)}
    {visited : List String} (pkg : String) (rv : ResolvedVersion)
    (h : treeKeysVisited tree visited) :
    treeKeysVisited (assocSet tree pkg rv) (pkg :: visited) := by
  intro k hk
  by_cases hid : pkg = k
  · exact hid ▸ List.mem_cons_self _ _
  · rw [assocLookup_assocSet_ne tree pkg k rv hid] at hk
    exact List.mem_cons_of_mem _ (h k hk)

theorem resolveVersionR_mem {reg : Registry} {packageName : String} {r : RangeT}
    {rv : ResolvedVersion} (h : resolveVersionR reg packageName r = some rv) :
    rv.version ∈ rv.packageInfo.versions.map (·.version) := by
  cases hreg : reg packageName with
  | none => simp [resolveVersionR, hreg] at h
  | some info =>
    cases hf : findBestMatch r (info.versions.map (·.version)) with
    | none => simp [resolveVersionR, hreg, hf] at h
    | some v =>
      simp only [resolveVersionR, hreg, hf] at h
      injection h with h
      subst h
      exact (findBestMatch_spec _ _ _ hf).1

theorem treeSound_assocSet {tree : List (String × ResolvedVersion)}
    (pkg : String) (rv : ResolvedVersion) (hS : treeSound tree)
    (hrv : rv.version ∈ rv.packageInfo.versions.map (·.version)) :
    treeSound (assocSet tree pkg rv) := by
  intro id e he
  by_cases hid : pkg = id
  · subst hid
    rw [assocLookup_assocSet_self] at he
    injection he with he
    subst he
    exact hrv
  · rw [assocLookup_assocSet_ne tree pkg id rv hid] at he
    exact hS id e he

/-- Monotonicity of `rdtGo`: the visited set only grows, the tree's keys
stay visited, and (write-once) an existing tree entry is never changed —
a later requirer of an already-resolved package can only record a
conflict, never re-resolve. -/
theorem rdtGo_invariant (reg : Registry) :
    ∀ (fuel : Nat) (deps : List (String × RangeT)) (visited : List String)
      (tree : List (String × ResolvedVersion)) (chain : List String)
      (conflicts : List DependencyConflict),
    treeKeysVisited tree visited →
    (∀ x ∈ visited, x ∈ (rdtGo reg fuel deps visited tree chain conflicts).1) ∧
    treeKeysVisited (rdtGo reg fuel deps visited tree chain conflicts).2.1
      (rdtGo reg fuel deps visited tree chain conflicts).1 ∧
    (∀ id e, assocLookup tree id = some e →
      assocLookup (rdtGo reg fuel deps visited tree chain conflicts).2.1 id = some e) := by
  intro fuel
  induction fuel with
  | zero =>
    intro deps visited tree chain conflicts h
    exact ⟨fun x hx => hx, h, fun id e he => he⟩
  | succ fuel ih =>
    intro deps visited tree chain conflicts h
    cases deps with
    | nil => exact ⟨fun x hx => hx, h, fun id e he => he⟩
    | cons hd rest =>
      obtain ⟨pkg, range⟩ := hd
      by_cases hv : pkg ∈ visited
      · simp only [rdtGo, if_pos hv]
        exact ih rest visited tree chain _ h
      · have hmono := treeKeysVisited_mono pkg h
        cases hp : parsePkgName pkg with
        | none =>
          have hr := ih rest (pkg :: visited) tree chain conflicts hmono
          simp only [rdtGo, hp]
          rw [if_neg hv]
          exact ⟨fun x hx => hr.1 x (List.mem_cons_of_mem _ hx), hr.2.1, hr.2.2⟩
        | some sn =>
          obtain ⟨scope, name⟩ := sn
          cases hres : resolveVersionR reg (scope ++ "/" ++ name) range with
          | none =>
            have hr := ih rest (pkg :: visited) tree chain conflicts hmono
            simp only [rdtGo, hp, hres]
            rw [if_neg hv]
            exact ⟨fun x hx => hr.1 x (List.mem_cons_of_mem _ hx), hr.2.1, hr.2.2⟩
          | some resolved =>
            have hnone : assocLookup tree pkg = none := by
              cases hl : assocLookup tree pkg with
              | none => rfl
              | some e => exact absurd (h pkg (by simp [hl])) hv
            have hset := treeKeysVisited_assocSet pkg resolved h
            have hpreserve : ∀ id e, assocLookup tree id = some e →
                assocLookup (assocSet tree pkg resolved) id = some e := by
              intro id e he
              have hid : pkg ≠ id := fun hEq => by
                rw [hEq] at hnone; rw [hnone] at he; exact absurd he (by simp)
              rw [assocLookup_assocSet_ne tree pkg id resolved hid]
              exact he
            cases hfind : resolved.packageInfo.versions.find?
                (fun ve => decide (ve.version = resolved.version)) with
            | none =>
              have hr := ih rest (pkg :: visited) (assocSet tree pkg resolved)
                chain conflicts hset
              simp only [rdtGo, hp, hres, hnone, hfind]
              rw [if_neg hv]
              exact ⟨fun x hx => hr.1 x (List.mem_cons_of_mem _ hx), hr.2.1,
                fun id e he => hr.2.2 id e (hpreserve id e he)⟩
            | some versionInfo =>
              by_cases hsub : (mergeObj versionInfo.dependencies
                  versionInfo.serverDependencies).isEmpty = true
              · have hr := ih rest (pkg :: visited) (assocSet tree pkg resolved)
                  chain conflicts hset
                simp only [rdtGo, hp, hres, hnone, hfind, hsub]
                rw [if_neg hv]
                exact ⟨fun x hx => hr.1 x (List.mem_cons_of_mem _ hx), hr.2.1,
                  fun id e he => hr.2.2 id e (hpreserve id e he)⟩
              · have hsubinv := ih (mergeObj versionInfo.dependencies
                    versionInfo.serverDependencies) (pkg :: visited)
                  (assocSet tree pkg resolved) (chain ++ [pkg]) [] hset
                have hrest := ih rest
                  (rdtGo reg fuel (mergeObj versionInfo.dependencies
                    versionInfo.serverDependencies) (pkg :: visited)
                    (assocSet tree pkg resolved) (chain ++ [pkg]) []).1
                  (rdtGo reg fuel (mergeObj versionInfo.dependencies
                    versionInfo.serverDependencies) (pkg :: visited)
                    (assocSet tree pkg resolved) (chain ++ [pkg]) []).2.1
                  chain (conflicts ++ (rdtGo reg fuel (mergeObj
                    versionInfo.dependencies versionInfo.serverDependencies)
                    (pkg :: visited) (assocSet tree pkg resolved)
                    (chain ++ [pkg]) []).2.2) hsubinv.2.1
                simp only [rdtGo, hp, hres, hnone, hfind]
                rw [if_neg hv, if_neg hsub]
                exact ⟨fun x hx => hrest.1 x (hsubinv.1 x (List.mem_cons_of_mem _ hx)),
                  hrest.2.1, fun id e he => hrest.2.2 id e (hsubinv.2.2 id e
                    (hpreserve id e he))⟩

/-- Soundness of `rdtGo` for any processing order and any prior state:
every entry it ever stores comes out of `resolveVersionR`, so its version
is one of the registry versions of its package. -/
theorem rdtGo_sound (reg : Registry) :
    ∀ (fuel : Nat) (deps : List (String × RangeT)) (visited : List String)
      (tree : List (String × ResolvedVersion)) (chain : List String)
      (conflicts : List DependencyConflict),
    treeSound tree →
    treeSound (rdtGo reg fuel deps visited tree chain conflicts).2.1 := by
  intro fuel
  induction fuel with
  | zero => intro deps visited tree chain conflicts hS; exact hS
  | succ fuel ih =>
    intro deps visited tree chain conflicts hS
    cases deps with
    | nil => exact hS
    | cons hd rest =>
      obtain ⟨pkg, range⟩ := hd
      by_cases hv : pkg ∈ visited
      · simp only [rdtGo]
        rw [if_pos hv]
        exact ih rest visited tree chain _ hS
      · cases hp : parsePkgName pkg with
        | none =>
          simp only [rdtGo, hp]
          rw [if_neg hv]
          exact ih rest (pkg :: visited) tree chain conflicts hS
        | some sn =>
          obtain ⟨scope, name⟩ := sn
          cases hres : resolveVersionR reg (scope ++ "/" ++ name) range with
          | none =>
            simp only [rdtGo, hp, hres]
            rw [if_neg hv]
            exact ih rest (pkg :: visited) tree chain conflicts hS
          | some resolved =>
            have hrmem := resolveVersionR_mem hres
            cases hlook : assocLookup tree pkg with
            | none =>
              have hS1 := treeSound_assocSet pkg resolved hS hrmem
              cases hfind : resolved.packageInfo.versions.find?
                  (fun ve => decide (ve.version = resolved.version)) with
              | none =>
                simp only [rdtGo, hp, hres, hlook, hfind]
                rw [if_neg hv]
                exact ih rest (pkg :: visited) _ chain conflicts hS1
              | some versionInfo =>
                by_cases hsub : (mergeObj versionInfo.dependencies
                    versionInfo.serverDependencies).isEmpty = true
                · simp only [rdtGo, hp, hres, hlook, hfind, hsub]
                  rw [if_neg hv]
                  exact ih rest (pkg :: visited) _ chain conflicts hS1
                · simp only [rdtGo, hp, hres, hlook, hfind]
                  rw [if_neg hv, if_neg hsub]
                  exact ih rest _ _ chain _
                    (ih (mergeObj versionInfo.dependencies
                      versionInfo.serverDependencies) (pkg :: visited) _
                      (chain ++ [pkg]) [] hS1)
            | some existing =>
              by_cases heq : existing.version = resolved.version
              · have hS1 := treeSound_assocSet pkg resolved hS hrmem
                cases hfind : resolved.packageInfo.versions.find?
                    (fun ve => decide (ve.version = resolved.version)) with
                | none =>
                  simp only [rdtGo, hp, hres, hlook, hfind]
                  rw [if_neg hv, if_neg (fun hc => hc heq)]
                  exact ih rest (pkg :: visited) _ chain conflicts hS1
                | some versionInfo =>
                  by_cases hsub : (mergeObj versionInfo.dependencies
                      versionInfo.serverDependencies).isEmpty = true
                  · simp only [rdtGo, hp, hres, hlook, hfind, hsub]
                    rw [if_neg hv, if_neg (fun hc => hc heq)]
                    exact ih rest (pkg :: visited) _ chain conflicts hS1
                  · simp only [rdtGo, hp, hres, hlook, hfind]
                    rw [if_neg hv, if_neg (fun hc => hc heq)]
                    simp only []
                    rw [if_neg hsub]
                    exact ih rest _ _ chain _
                      (ih (mergeObj versionInfo.dependencies
                        versionInfo.serverDependencies) (pkg :: visited) _
                        (chain ++ [pkg]) [] hS1)
              · cases hcv : findCompatibleVersion reg (scope ++ "/" ++ name)
                    [range, getVersionRange existing.version] with
                | none =>
                  -- conflict recorded, tree unchanged
                  cases hfind : resolved.packageInfo.versions.find?
                      (fun ve => decide (ve.version = resolved.version)) with
                  | none =>
                    simp only [rdtGo, hp, hres, hlook, hcv, hfind]
                    rw [if_neg hv, if_pos heq]
                    exact ih rest (pkg :: visited) tree chain _ hS
                  | some versionInfo =>
                    by_cases hsub : (mergeObj versionInfo.dependencies
                        versionInfo.serverDependencies).isEmpty = true
                    · simp only [rdtGo, hp, hres, hlook, hcv, hfind, hsub]
                      rw [if_neg hv, if_pos heq]
                      exact ih rest (pkg :: visited) tree chain _ hS
                    · simp only [rdtGo, hp, hres, hlook, hcv, hfind]
                      rw [if_neg hv, if_pos heq]
                      simp only []
                      rw [if_neg hsub]
                      exact ih rest _ _ chain _
                        (ih (mergeObj versionInfo.dependencies
                          versionInfo.serverDependencies) (pkg :: visited) tree
                          (chain ++ [pkg]) [] hS)
                | some compatible =>
                  cases hcr : resolveVersionR reg (scope ++ "/" ++ name)
                      (.exact compatible) with
                  | none =>
                    -- inner throw: the whole entry is skipped
                    simp only [rdtGo, hp, hres, hlook, hcv, hcr]
                    rw [if_neg hv, if_pos heq]
                    exact ih rest (pkg :: visited) tree chain conflicts hS
                  | some compatibleResolved =>
                    have hS1 := treeSound_assocSet pkg compatibleResolved hS
                      (resolveVersionR_mem hcr)
                    cases hfind : resolved.packageInfo.versions.find?
                        (fun ve => decide (ve.version = resolved.version)) with
                    | none =>
                      simp only [rdtGo, hp, hres, hlook, hcv, hcr, hfind]
                      rw [if_neg hv, if_pos heq]
                      exact ih rest (pkg :: visited) _ chain _ hS1
                    | some versionInfo =>
                      by_cases hsub : (mergeObj versionInfo.dependencies
                          versionInfo.serverDependencies).isEmpty = true
                      · simp only [rdtGo, hp, hres, hlook, hcv, hcr, hfind, hsub]
                        rw [if_neg hv, if_pos heq]
                        exact ih rest (pkg :: visited) _ chain _ hS1
                      · simp only [rdtGo, hp, hres, hlook, hcv, hcr, hfind]
                        rw [if_neg hv, if_pos heq]
                        simp only []
                        rw [if_neg hsub]
                        exact ih rest _ _ chain _
                          (ih (mergeObj versionInfo.dependencies
                            versionInfo.serverDependencies) (pkg :: visited) _
                            (chain ++ [pkg]) [] hS1)

/-! ## Registry client requests (`src/lib/managers/WallyAPI.ts`)

The header constants and the three request shapes; only the URL and the
header list matter to the claims.  `searchRequest` takes the already
URL-encoded query. -/

/-- An HTTP request as issued by the client: URL plus header list. -/
structure HttpRequest where
  url : String
  headers : List (String × String)
deriving DecidableEq, Repr

/-- `HTTP_HEADERS` — common headers for Jelly requests. -/
def HTTP_HEADERS : List (String × String) :=
  [("User-Agent", "jelly-cli/0.3.3"),
   ("Accept", "application/json"),
   ("Content-Type", "application/json")]

/-- `DOWNLOAD_HEADERS` — headers for package downloads. -/
def DOWNLOAD_HEADERS : List (String × String) :=
  [("User-Agent", "jelly-cli/0.3.3"),
   ("Accept", "application/zip"),
   ("Wally-Version", "0.3.2")]

/-- `DEFAULT_BASE_URL` of the Wally registry. -/
def DEFAULT_BASE_URL : String := "https://api.wally.run"

/-- Request built by `WallyAPI.searchPackages`. -/
def searchRequest (encodedQuery : String) : HttpRequest :=
  ⟨DEFAULT_BASE_URL ++ "/v1/package-search?query=" ++ encodedQuery, HTTP_HEADERS⟩

/-- Request built by `WallyAPI.getPackageInfo`. -/
def metadataRequest (scope name : String) : HttpRequest :=
  ⟨DEFAULT_BASE_URL ++ "/v1/package-metadata/" ++ scope ++ "/" ++ name, HTTP_HEADERS⟩

/-- Request built by `PackageDownloader.downloadPackage`. -/
def downloadRequest (scope name version : String) : HttpRequest :=
  ⟨"https://api.wally.run/v1/package-contents/" ++ scope ++ "/" ++ name ++ "/"
    ++ version, DOWNLOAD_HEADERS⟩

/-! ## PackageDownloader (`src/lib/PackageDownloader.ts`) -/

/-- JS `String.prototype.split(sep)` on character lists (no limit):
`""` splits to `[""]`, separators at the ends produce empty segments. -/
def splitChar (sep : Char) : List Char → List (List Char)
  | [] => [[]]
  | c :: rest =>
    match splitChar sep rest with
    | [] => [[]]
    | s :: ss => if c = sep then [] :: s :: ss else (c :: s) :: ss

/-- JS `parseInt(x, 10) || 0` on a version segment: optional sign, then
the leading digit run; no digits (`NaN`) or a zero result both collapse
to `0` through `|| 0`. -/
def jsParseIntOr0 (s : String) : Int :=
  let core : List Char → Int := fun cs =>
    (cs.takeWhile (·.isDigit)).foldl (fun acc c => acc * 10 + (c.toNat - '0'.toNat)) 0
  match s.toList with
  | '-' :: rest => -(core rest)
  | '+' :: rest => core rest
  | cs => core cs

/-- Tail of the `compareVersions` loop once `b`'s parts ran out:
each remaining part of `a` compares against the `0` padding. -/
def cmpPadPos : List Int → Int
  | [] => 0
  | a :: as => if a > 0 then 1 else if a < 0 then -1 else cmpPadPos as

/-- Tail of the `compareVersions` loop once `a`'s parts ran out:
the `0` padding compares against each remaining part of `b`. -/
def cmpPadNeg : List Int → Int
  | [] => 0
  | b :: bs => if (0 : Int) > b then 1 else if (0 : Int) < b then -1 else cmpPadNeg bs

/-- The numeric part-by-part loop of `compareVersions`, missing parts
defaulting to `0`. -/
def cmpParts : List Int → List Int → Int
  | [], [] => 0
  | a :: as, b :: bs =>
    if a > b then 1 else if a < b then -1 else cmpParts as bs
  | a :: as, [] => cmpPadPos (a :: as)
  | [], b :: bs => cmpPadNeg (b :: bs)

/-- `PackageDownloader.compareVersions`: split on `.`, `parseInt` each
segment (so `"0-rc"` parses as `0` and a trailing `".1"` of a pre-release
tag becomes a fourth numeric part), compare padded with zeros. -/
def compareVersionsTS (a b : String) : Int :=
  cmpParts ((splitChar '.' a.toList).map fun seg => jsParseIntOr0 ⟨seg⟩)
    ((splitChar '.' b.toList).map fun seg => jsParseIntOr0 ⟨seg⟩)

/-- One entry of the alias-emission pass (scope, leaf name, the version
recovered from the directory name or package files, require path, and the
`_Index` directory name). -/
structure PkgVersionEntry where
  scope : String
  name : String
  version : Option String
  requirePath : String
  packageDir : String
deriving DecidableEq, Repr

/-- The sort comparator inside `getLatestVersion` (descending:
`compareVersions(b.version, a.version)`), entries without a version
first. -/
def latestCmp (a b : PkgVersionEntry) : Int :=
  match a.version, b.version with
  | none, none => 0
  | none, some _ => -1
  | some _, none => 1
  | some va, some vb => compareVersionsTS vb va

/-- Stable insertion used to model JS `Array.prototype.sort` (stable per
ES2019): an element goes before the first element it does not compare
greater than. -/
def insertStable (cmp : α → α → Int) (a : α) : List α → List α
  | [] => [a]
  | b :: rest => if cmp a b ≤ 0 then a :: b :: rest else b :: insertStable cmp a rest

/-- Stable sort by a JS comparator. -/
def stableSortJs (cmp : α → α → Int) (l : List α) : List α :=
  l.foldr (insertStable cmp) []

/-- `PackageDownloader.getLatestVersion`: singleton short-circuit, else
the head of the descending sort. -/
def getLatestVersionTS (packages : List PkgVersionEntry) : Option PkgVersionEntry :=
  match packages with
  | [p] => some p
  | pkgs => (stableSortJs latestCmp pkgs).head?

/-- The version sanitizer of the versioned alias file names:
`version.replace(/[^a-zA-Z0-9]/g, '_')`. -/
def sanitizeVersion (v : String) : String :=
  ⟨v.toList.map (fun c => if c.isAlphanum then c else '_')⟩

/-- Alias files written by `generatePackageIndex` for one group of
`_Index` entries sharing a leaf `name`: file name paired with the
require-target directory.  A single entry gets the plain alias; several
entries get one versioned alias each plus the default alias pointing at
`getLatestVersion`'s pick. -/
def aliasFilesFor (packageName : String) (packageVersions : List PkgVersionEntry) :
    List (String × String) :=
  match packageVersions with
  | [pkg] => [(packageName ++ ".lua", "./_Index/" ++ pkg.packageDir)]
  | pkgs =>
    (pkgs.map fun pkg =>
      let versionSuffix :=
        match pkg.version with
        | some v => "_" ++ sanitizeVersion v
        | none => "_unknown"
      (packageName ++ versionSuffix ++ ".lua", "./_Index/" ++ pkg.packageDir))
    ++ (match getLatestVersionTS pkgs with
        | some latestPkg => [(packageName ++ ".lua", "./_Index/" ++ latestPkg.packageDir)]
        | none => [])

/-- `getInstalledPackages`'s directory-name decoding:
`const [scope, name] = item.split('_', 2)` — the full split truncated to
its first two segments (JS `split` with a limit truncates, it does not
keep a remainder).  The second component is `""` in the guarded-away
one-segment case. -/
def recoverScopeName (item : String) : String × String :=
  match splitChar '_' item.toList with
  | s :: n :: _ => (⟨s⟩, ⟨n⟩)
  | [s] => (⟨s⟩, "")
  | [] => ("", "")

/-! ## LockfileManager -/

/-- `LockfileEntry` of the lockfile schema. -/
structure LockEntryL where
  version : String
  resolved : String
  dependencies : List (String × String)
  devDependencies : List (String × String)
deriving DecidableEq, Repr

/-- The manifest fields `generateLockfile` / `validateLockfile` read. -/
structure JellyConfigL where
  name : String
  version : String
  dependencies : List (String × String)
  devDependencies : List (String × String)
deriving DecidableEq, Repr

/-- `JellyLockfile`. -/
structure JellyLockfile where
  lockfileVersion : Nat
  name : String
  version : String
  packages : List (String × LockEntryL)
  dependencies : List (String × String)
  devDependencies : List (String × String)
deriving DecidableEq, Repr

/-- `LockfileManager.readLockfile` on the current disk content: absent or
malformed content and a `lockfileVersion ≠ 1` both read as `none`. -/
def readLockfileL (disk : Option JellyLockfile) : Option JellyLockfile :=
  match disk with
  | none => none
  | some lockfile => if lockfile.lockfileVersion = 1 then some lockfile else none

/-- JS truthiness of `lockfileDeps[packageName]`: present and non-empty. -/
def jsTruthyStr (o : Option String) : Bool :=
  match o with
  | none => false
  | some s => !s.isEmpty

/-- `LockfileManager.validateLockfile`: read the lockfile, then check
every entry of `{...dependencies, ...devDependencies}` of the manifest
against `{...lockfile.dependencies, ...lockfile.devDependencies}` — the
top-level maps, not `lockfile.packages`. -/
def validateLockfileL (config : JellyConfigL) (disk : Option JellyLockfile) : Bool :=
  match readLockfileL disk with
  | none => false
  | some lockfile =>
    let configDeps := mergeObj config.dependencies config.devDependencies
    let lockfileDeps := mergeObj lockfile.dependencies lockfile.devDependencies
    configDeps.all fun kv => jsTruthyStr (assocLookup lockfileDeps kv.1)

/-- Registry version entry as the lockfile manager reads it
(`dependencies`, `server-dependencies`, `dev-dependencies` all optional). -/
structure WallyVersionEntryL where
  version : String
  dependencies : Option (List (String × String)) := none
  serverDependencies : Option (List (String × String)) := none
  devDependencies : Option (List (String × String)) := none
deriving DecidableEq, Repr

/-- Registry metadata in the lockfile manager's string world. -/
structure WallyPackageInfoL where
  versions : List WallyVersionEntryL
deriving DecidableEq, Repr

/-- Registry snapshot for the lockfile manager. -/
def RegistryL := String → Option WallyPackageInfoL

/-- Caret or tilde, the only range forms `LockfileManager.resolveVersion`
treats as ranges. -/
inductive CompatType where
  | caret
  | tilde
deriving DecidableEq, Repr

/-- JS `Number(segment)` results as the manager's comparisons see them:
a number, `NaN`, or `undefined` from an out-of-range index. -/
inductive JsNum where
  | int (n : Int)
  | nan
  | undefined
deriving DecidableEq, Repr

/-- `Number` on one dotted segment: `""` is `0`, a pure digit run is its
value, anything else the manager meets is `NaN`. -/
def jsNumber (s : String) : JsNum :=
  match s.toList with
  | [] => .int 0
  | cs =>
    if cs.all (·.isDigit) then
      .int ((cs.foldl (fun acc c => acc * 10 + (c.toNat - '0'.toNat)) 0 : Nat) : Int)
    else .nan

/-- Indexing `parts[i]`: `undefined` past the end. -/
def jsIdx (l : List JsNum) (i : Nat) : JsNum :=
  (l.get? i).getD .undefined

/-- JS `===` on these values (`NaN === NaN` is false,
`undefined === undefined` is true). -/
def jsEq : JsNum → JsNum → Bool
  | .int a, .int b => a == b
  | .undefined, .undefined => true
  | _, _ => false

/-- JS `>` (false whenever `NaN` or `undefined` is involved). -/
def jsGt : JsNum → JsNum → Bool
  | .int a, .int b => decide (a > b)
  | _, _ => false

/-- JS `>=` (false whenever `NaN` or `undefined` is involved). -/
def jsGe : JsNum → JsNum → Bool
  | .int a, .int b => decide (a ≥ b)
  | _, _ => false

/-- `LockfileManager.isCompatibleVersion`: numeric triple comparison via
`split('.').map(Number)`. -/
def isCompatibleVersionL (version baseVersion : String) (t : CompatType) : Bool :=
  let vp := (splitChar '.' version.toList).map fun seg => jsNumber ⟨seg⟩
  let bp := (splitChar '.' baseVersion.toList).map fun seg => jsNumber ⟨seg⟩
  match t with
  | .caret =>
    jsEq (jsIdx vp 0) (jsIdx bp 0) &&
      (jsGt (jsIdx vp 1) (jsIdx bp 1) ||
        (jsEq (jsIdx vp 1) (jsIdx bp 1) && jsGe (jsIdx vp 2) (jsIdx bp 2)))
  | .tilde =>
    jsEq (jsIdx vp 0) (jsIdx bp 0) && jsEq (jsIdx vp 1) (jsIdx bp 1) &&
      jsGe (jsIdx vp 2) (jsIdx bp 2)

/-- The `range.startsWith('^')` tests, on the character list. -/
def strHead (s : String) (c : Char) : Bool :=
  match s.toList with
  | [] => false
  | d :: _ => d = c

/-- The `range.substring(1)` base-version extraction. -/
def strTail (s : String) : String :=
  ⟨s.toList.drop 1⟩

/-- `LockfileManager.satisfiesRange`. -/
def satisfiesRangeL (version range : String) : Bool :=
  if strHead range '^' then isCompatibleVersionL version (strTail range) .caret
  else if strHead range '~' then isCompatibleVersionL version (strTail range) .tilde
  else version == range

/-- `LockfileManager.resolveVersion`: for `^`/`~` scan the registry list
for the first satisfying version, falling back to the bare base version;
any other string is returned as-is as an exact version (without
consulting the registry).  `none` models `getPackageInfo` throwing. -/
def resolveVersionL (reg : RegistryL) (scope name versionRange : String) :
    Option String :=
  if strHead versionRange '^' || strHead versionRange '~' then
    match reg (scope ++ "/" ++ name) with
    | none => none
    | some packageInfo =>
      match packageInfo.versions.find? (fun vi => satisfiesRangeL vi.version versionRange) with
      | some vi => some vi.version
      | none => some (strTail versionRange)
  else some versionRange

/-- `LockfileManager.resolveDependencies`, loop and recursion fused as
with the resolver: threads the `packages` record and the `visited` set;
every per-package failure (bad name, metadata fetch, version not found)
is caught, warned and skipped. -/
def rdl (reg : RegistryL) :
    Nat → List (String × String) → List (String × LockEntryL) → List String →
    List (String × LockEntryL) × List String
  | 0, _, packages, visited => (packages, visited)
  | _ + 1, [], packages, visited => (packages, visited)
  | fuel + 1, (packageName, versionRange) :: rest, packages, visited =>
    if packageName ∈ visited then rdl reg fuel rest packages visited
    else
      let visited1 := packageName :: visited
      match parsePkgName packageName with
      | none => rdl reg fuel rest packages visited1
      | some (scope, name) =>
        match resolveVersionL reg scope name versionRange with
        | none => rdl reg fuel rest packages visited1
        | some resolvedVersion =>
          match reg (scope ++ "/" ++ name) with
          | none => rdl reg fuel rest packages visited1
          | some packageInfo =>
            match packageInfo.versions.find? (fun vi => vi.version == resolvedVersion) with
            | none => rdl reg fuel rest packages visited1
            | some versionInfo =>
              let packages1 := assocSet packages (scope ++ "/" ++ name)
                ⟨resolvedVersion,
                 "https://api.wally.run/v1/package-contents/" ++ scope ++ "/"
                   ++ name ++ "/" ++ resolvedVersion,
                 versionInfo.dependencies.getD [],
                 versionInfo.devDependencies.getD []⟩
              match versionInfo.dependencies with
              | some d =>
                match rdl reg fuel d packages1 visited1 with
                | (packages2, visited2) =>
                  match versionInfo.serverDependencies with
                  | some sd =>
                    match rdl reg fuel sd packages2 visited2 with
                    | (packages3, visited3) => rdl reg fuel rest packages3 visited3
                  | none => rdl reg fuel rest packages2 visited2
              | none =>
                match versionInfo.serverDependencies with
                | some sd =>
                  match rdl reg fuel sd packages1 visited1 with
                  | (packages2, visited2) => rdl reg fuel rest packages2 visited2
                | none => rdl reg fuel rest packages1 visited1

/-- `LockfileManager.generateLockfile`: top-level `dependencies` and
`devDependencies` are verbatim copies of the manifest maps; `packages`
is whatever the (failure-tolerant) resolution loop populated. -/
def generateLockfileL (reg : RegistryL) (fuel : Nat) (config : JellyConfigL) :
    JellyLockfile :=
  { lockfileVersion := 1
    name := config.name
    version := config.version
    packages := (rdl reg fuel (mergeObj config.dependencies config.devDependencies) [] []).1
    dependencies := config.dependencies
    devDependencies := config.devDependencies }

/-! ## `writeLockfile`'s filesystem operation trace -/

/-- Filesystem operations relevant to the lockfile write path. -/
inductive FsOp where
  | ensureDir (path : String)
  | writeFile (path : String) (content : String)
  | rename (src dest : String)
deriving DecidableEq, Repr

/-- Is this a rename? -/
def FsOp.isRename : FsOp → Bool
  | .rename _ _ => true
  | _ => false

/-- POSIX-style `path.dirname` (enough for the paths at hand). -/
def dirname (p : String) : String :=
  match p.toList.reverse.dropWhile (· ≠ '/') with
  | [] => "."
  | _ :: rest => if rest.isEmpty then "/" else ⟨rest.reverse⟩

/-- The lockfile path `path.join(projectPath, 'jelly-lock.json')`. -/
def lockfilePathOf (projectPath : String) : String :=
  projectPath ++ "/" ++ "jelly-lock.json"

/-- `LockfileManager.writeLockfile`'s operation trace: ensure the parent
directory, then one `writeFile` of the serialized lockfile straight to
`jelly-lock.json`.  No temporary file, no rename. -/
def writeLockfileOps (projectPath content : String) : List FsOp :=
  [.ensureDir (dirname (lockfilePathOf projectPath)),
   .writeFile (lockfilePathOf projectPath) content]

/-- Formalization of the claim's wording, for the refutation: an atomic
replace writes only to paths other than the final one and ends with a
rename onto the final path. -/
def opsAtomicReplace (ops : List FsOp) (finalPath : String) : Bool :=
  (ops.any fun op => match op with
    | .rename _ dest => dest == finalPath
    | _ => false) &&
  (ops.all fun op => match op with
    | .writeFile p _ => !(p == finalPath)
    | _ => true)

/-! ## Spec-side definition for the aggregated-range rule (claim C1) -/

/-- Modelled from the spec's resolution rule, for comparison with the
code: `candidates = { v | every aggregated range satisfied }`,
`chosen = max(candidates)` by SemVer precedence. -/
def specAggregatedMax (versions : List Version) (ranges : List RangeT) :
    Option Version :=
  match versions.filter (fun v => ranges.all (fun r => satisfies v r)) with
  | [] => none
  | x :: xs => some (maxBySemver x xs)

/-! ## Supporting lemmas: merged objects, stable sort, split -/

/-- Keys of an association list. -/
def keysNodup (l : List (String × α)) : Prop :=
  (l.map Prod.fst).Nodup

theorem mem_keys_assocSet {l : List (String × α)} {k x : String} {v : α}
    (h : x ∈ (assocSet l k v).map Prod.fst) : x = k ∨ x ∈ l.map Prod.fst := by
  induction l with
  | nil => simpa [assocSet] using h
  | cons hd tl ih =>
    by_cases h1 : hd.1 = k
    · simp only [assocSet, if_pos h1, List.map_cons, List.mem_cons] at h
      rcases h with h | h
      · exact Or.inl h
      · exact Or.inr (by simp [h])
    · simp only [assocSet, if_neg h1, List.map_cons, List.mem_cons] at h
      rcases h with h | h
      · exact Or.inr (by simp [h])
      · rcases ih h with h2 | h2
        · exact Or.inl h2
        · exact Or.inr (List.mem_cons_of_mem _ h2)

theorem keysNodup_assocSet {l : List (String × α)} (k : String) (v : α)
    (h : keysNodup l) : keysNodup (assocSet l k v) := by
  induction l with
  | nil => simp [keysNodup, assocSet]
  | cons hd tl ih =>
    have hhd : hd.1 ∉ tl.map Prod.fst := by
      have := h
      simp only [keysNodup, List.map_cons, List.nodup_cons] at this
      exact this.1
    have htl : keysNodup tl := by
      have := h
      simp only [keysNodup, List.map_cons, List.nodup_cons] at this
      exact this.2
    by_cases h1 : hd.1 = k
    · simp only [keysNodup, assocSet, if_pos h1, List.map_cons, List.nodup_cons]
      exact ⟨h1 ▸ hhd, htl⟩
    · simp only [keysNodup, assocSet, if_neg h1, List.map_cons, List.nodup_cons]
      refine ⟨fun hmem => ?_, ih htl⟩
      rcases mem_keys_assocSet hmem with h2 | h2
      · exact h1 h2
      · exact hhd h2

theorem assocLookup_of_mem_nodup {l : List (String × α)} {k : String} {v : α}
    (hnd : keysNodup l) (h : (k, v) ∈ l) : assocLookup l k = some v := by
  induction l with
  | nil => simp at h
  | cons hd tl ih =>
    rcases List.mem_cons.1 h with h1 | h1
    · simp [assocLookup, ← h1]
    · have hk : k ∈ tl.map Prod.fst := by
        exact List.mem_map.2 ⟨(k, v), h1, rfl⟩
      have hhd : hd.1 ∉ tl.map Prod.fst := by
        have := hnd
        simp only [keysNodup, List.map_cons, List.nodup_cons] at this
        exact this.1
      have htl : keysNodup tl := by
        have := hnd
        simp only [keysNodup, List.map_cons, List.nodup_cons] at this
        exact this.2
      have hne : hd.1 ≠ k := fun hEq => hhd (hEq ▸ hk)
      simp [assocLookup, hne, ih htl h1]

theorem mem_assocSet {l : List (String × α)} {k : String} {v : α} {p : String × α}
    (h : p ∈ assocSet l k v) : p ∈ l ∨ p = (k, v) := by
  induction l with
  | nil => exact Or.inr (by simpa [assocSet] using h)
  | cons hd tl ih =>
    by_cases h1 : hd.1 = k
    · simp only [assocSet, if_pos h1, List.mem_cons] at h
      rcases h with h | h
      · exact Or.inr h
      · exact Or.inl (List.mem_cons_of_mem _ h)
    · simp only [assocSet, if_neg h1, List.mem_cons] at h
      rcases h with h | h
      · exact Or.inl (by simp [h])
      · rcases ih h with h2 | h2
        · exact Or.inl (List.mem_cons_of_mem _ h2)
        · exact Or.inr h2

theorem mergeObj_keysNodup (a b : List (String × α)) : keysNodup (mergeObj a b) := by
  have haux : ∀ (l acc : List (String × α)), keysNodup acc →
      keysNodup (l.foldl (fun acc kv => assocSet acc kv.1 kv.2) acc) := by
    intro l
    induction l with
    | nil => intro acc h; exact h
    | cons hd tl ih => intro acc h; exact ih _ (keysNodup_assocSet hd.1 hd.2 h)
  exact haux (a ++ b) [] (by simp [keysNodup])

theorem mem_mergeObj {a b : List (String × α)} {p : String × α}
    (h : p ∈ mergeObj a b) : p ∈ a ++ b := by
  have haux : ∀ (l acc : List (String × α)),
      p ∈ l.foldl (fun acc kv => assocSet acc kv.1 kv.2) acc → p ∈ acc ∨ p ∈ l := by
    intro l
    induction l with
    | nil => intro acc h1; exact Or.inl h1
    | cons hd tl ih =>
      intro acc h1
      rcases ih _ h1 with h2 | h2
      · rcases mem_assocSet h2 with h3 | h3
        · exact Or.inl h3
        · exact Or.inr (by simp [h3])
      · exact Or.inr (List.mem_cons_of_mem _ h2)
  rcases haux (a ++ b) [] h with h1 | h1
  · simp at h1
  · exact h1

theorem mem_insertStable {cmp : α → α → Int} {a x : α} {l : List α}
    (h : x ∈ insertStable cmp a l) : x = a ∨ x ∈ l := by
  induction l with
  | nil => simpa [insertStable] using h
  | cons b rest ih =>
    by_cases h1 : cmp a b ≤ 0
    · simp only [insertStable, if_pos h1, List.mem_cons] at h
      rcases h with h | h
      · exact Or.inl h
      · exact Or.inr (List.mem_cons.2 h)
    · simp only [insertStable, if_neg h1, List.mem_cons] at h
      rcases h with h | h
      · exact Or.inr (by simp [h])
      · rcases ih h with h2 | h2
        · exact Or.inl h2
        · exact Or.inr (List.mem_cons_of_mem _ h2)

theorem mem_stableSortJs {cmp : α → α → Int} {x : α} {l : List α}
    (h : x ∈ stableSortJs cmp l) : x ∈ l := by
  induction l with
  | nil => simpa [stableSortJs] using h
  | cons b rest ih =>
    simp only [stableSortJs, List.foldr_cons] at h
    rcases mem_insertStable h with h1 | h1
    · simp [h1]
    · exact List.mem_cons_of_mem _ (ih h1)

theorem getLatestVersionTS_mem {pkgs : List PkgVersionEntry}
    {latest : PkgVersionEntry} (h : getLatestVersionTS pkgs = some latest) :
    latest ∈ pkgs := by
  match pkgs with
  | [] => simp [getLatestVersionTS, stableSortJs] at h
  | [p] =>
    simp only [getLatestVersionTS] at h
    injection h with h
    simp [h]
  | a :: b :: rest =>
    simp only [getLatestVersionTS] at h
    cases hs : stableSortJs latestCmp (a :: b :: rest) with
    | nil => rw [hs] at h; simp at h
    | cons y ys =>
      rw [hs] at h
      injection h with h
      subst h
      exact mem_stableSortJs (hs ▸ List.mem_cons_self _ _)

theorem splitChar_ne_nil (sep : Char) (l : List Char) : splitChar sep l ≠ [] := by
  cases l with
  | nil => simp [splitChar]
  | cons c rest =>
    simp only [splitChar]
    cases h : splitChar sep rest with
    | nil => simp
    | cons s ss => by_cases h1 : c = sep <;> simp [h1]

theorem splitChar_no_sep {sep : Char} {l : List Char} (h : sep ∉ l) :
    splitChar sep l = [l] := by
  induction l with
  | nil => rfl
  | cons c rest ih =>
    have hc : c ≠ sep := fun hEq => h (hEq ▸ List.mem_cons_self _ _)
    have hrest : sep ∉ rest := fun hm => h (List.mem_cons_of_mem _ hm)
    simp only [splitChar, ih hrest]
    simp [fun hEq => hc hEq]

theorem splitChar_append {sep : Char} {a : List Char} (b : List Char)
    (h : sep ∉ a) : splitChar sep (a ++ sep :: b) = a :: splitChar sep b := by
  induction a with
  | nil =>
    simp only [List.nil_append, splitChar]
    cases hs : splitChar sep b with
    | nil => exact absurd hs (splitChar_ne_nil sep b)
    | cons s ss => simp
  | cons c rest ih =>
    have hc : c ≠ sep := fun hEq => h (hEq ▸ List.mem_cons_self _ _)
    have hrest : sep ∉ rest := fun hm => h (List.mem_cons_of_mem _ hm)
    simp only [List.cons_append, splitChar, List.append_eq]
    rw [ih hrest]
    simp [hc]

theorem splitChar_head (sep : Char) (l : List Char) :
    (splitChar sep l).head? = some (l.takeWhile (· ≠ sep)) := by
  induction l with
  | nil => rfl
  | cons c rest ih =>
    simp only [splitChar]
    cases hs : splitChar sep rest with
    | nil => exact absurd hs (splitChar_ne_nil sep rest)
    | cons s ss =>
      rw [hs] at ih
      simp only [List.head?] at ih
      injection ih with ih
      by_cases h1 : c = sep
      · simp [h1, List.takeWhile]
      · simp [h1, List.takeWhile, ih]

theorem exists_first_occ {c : Char} {l : List Char} (h : c ∈ l) :
    ∃ x y, l = x ++ c :: y ∧ c ∉ x := by
  induction l with
  | nil => simp at h
  | cons d rest ih =>
    by_cases h1 : d = c
    · exact ⟨[], rest, by simp [h1], by simp⟩
    · have h2 : c ∈ rest := by
        rcases List.mem_cons.1 h with h3 | h3
        · exact absurd h3.symm h1
        · exact h3
      obtain ⟨x, y, hxy, hnx⟩ := ih h2
      exact ⟨d :: x, y, by simp [hxy], by
        intro hm
        rcases List.mem_cons.1 hm with h4 | h4
        · exact h1 h4.symm
        · exact hnx h4⟩

/-! ## The comparator of `getLatestVersion` is a total preorder

The dotted-numeric comparison underlying `compareVersions` is transitive
and total (as a `≤ 0` relation), so the head of the stable sort inside
`getLatestVersion` is a maximum of the group under that comparator. -/

theorem cmpParts_nil_left (b : List Int) : cmpParts [] b = cmpPadNeg b := by
  cases b <;> rfl

theorem cmpParts_nil_right (a : List Int) : cmpParts a [] = cmpPadPos a := by
  cases a <;> rfl

theorem cmpPadNeg_trans : ∀ (b c : List Int), cmpPadNeg b ≤ 0 →
    cmpParts b c ≤ 0 → cmpPadNeg c ≤ 0 := by
  intro b
  induction b with
  | nil =>
    intro c h1 h2
    rw [cmpParts_nil_left] at h2
    exact h2
  | cons y ys ih =>
    intro c h1 h2
    cases c with
    | nil => simp [cmpPadNeg]
    | cons z zs =>
      simp only [cmpPadNeg] at h1 ⊢
      simp only [cmpParts] at h2
      split_ifs at h1 with hy1 hy2
      · omega
      · -- 0 < y: any z with ¬(y > z) gives 0 < z
        split_ifs at h2 with hz1 hz2
        · omega
        · split_ifs with hc1 hc2
          · omega
          · omega
          · omega
        · split_ifs with hc1 hc2
          · omega
          · omega
          · omega
      · -- y = 0
        split_ifs at h2 with hz1 hz2
        · omega
        · split_ifs with hc1 hc2
          · omega
          · omega
          · omega
        · -- y = z = 0: recurse
          split_ifs with hc1 hc2
          · omega
          · omega
          · exact ih zs h1 h2

theorem cmpPadPos_trans : ∀ (a b : List Int), cmpParts a b ≤ 0 →
    cmpPadPos b ≤ 0 → cmpPadPos a ≤ 0 := by
  intro a
  induction a with
  | nil => intro b h1 h2; simp [cmpPadPos]
  | cons x xs ih =>
    intro b h1 h2
    cases b with
    | nil =>
      rw [cmpParts_nil_right] at h1
      exact h1
    | cons y ys =>
      simp only [cmpParts] at h1
      simp only [cmpPadPos] at h2 ⊢
      split_ifs at h2 with hy1 hy2
      · omega
      · split_ifs at h1 with hx1 hx2
        · omega
        · split_ifs with hc1 hc2
          · omega
          · omega
          · omega
        · omega
      · split_ifs at h1 with hx1 hx2
        · omega
        · split_ifs with hc1 hc2
          · omega
          · omega
          · omega
        · -- x = y = 0: recurse
          split_ifs with hc1 hc2
          · omega
          · omega
          · exact ih ys h1 h2

theorem cmpPadPos_cmpPadNeg (a : List Int) : ∀ (c : List Int),
    cmpPadPos a ≤ 0 → cmpPadNeg c ≤ 0 → cmpParts a c ≤ 0 := by
  induction a with
  | nil =>
    intro c h1 h2
    rw [cmpParts_nil_left]
    exact h2
  | cons x xs ih =>
    intro c h1 h2
    cases c with
    | nil =>
      rw [cmpParts_nil_right]
      exact h1
    | cons z zs =>
      simp only [cmpPadPos] at h1
      simp only [cmpPadNeg] at h2
      simp only [cmpParts]
      split_ifs at h1 with hx1 hx2
      · omega
      · split_ifs at h2 with hz1 hz2
        · omega
        · split_ifs with hc1 hc2
          · omega
          · omega
          · omega
        · split_ifs with hc1 hc2
          · omega
          · omega
          · omega
      · split_ifs at h2 with hz1 hz2
        · omega
        · split_ifs with hc1 hc2
          · omega
          · omega
          · omega
        · -- x = z = 0: recurse
          split_ifs with hc1 hc2
          · omega
          · omega
          · exact ih zs h1 h2

theorem cmpParts_le_trans : ∀ (a b c : List Int), cmpParts a b ≤ 0 →
    cmpParts b c ≤ 0 → cmpParts a c ≤ 0 := by
  intro a
  induction a with
  | nil =>
    intro b c h1 h2
    rw [cmpParts_nil_left] at h1 ⊢
    exact cmpPadNeg_trans b c h1 h2
  | cons x xs ih =>
    intro b c h1 h2
    cases b with
    | nil =>
      rw [cmpParts_nil_right] at h1
      rw [cmpParts_nil_left] at h2
      exact cmpPadPos_cmpPadNeg (x :: xs) c h1 h2
    | cons y ys =>
      cases c with
      | nil =>
        rw [cmpParts_nil_right] at h2 ⊢
        exact cmpPadPos_trans (x :: xs) (y :: ys) h1 h2
      | cons z zs =>
        simp only [cmpParts] at h1 h2 ⊢
        split_ifs at h1 with hxy1 hxy2
        · omega
        · split_ifs at h2 with hyz1 hyz2
          · omega
          · split_ifs with hxz1 hxz2
            · omega
            · omega
            · omega
          · split_ifs with hxz1 hxz2
            · omega
            · omega
            · omega
        · split_ifs at h2 with hyz1 hyz2
          · omega
          · split_ifs with hxz1 hxz2
            · omega
            · omega
            · omega
          · -- x = y = z: recurse
            split_ifs with hxz1 hxz2
            · omega
            · omega
            · exact ih ys zs h1 h2

theorem cmpPadNeg_eq_neg (l : List Int) : cmpPadNeg l = -cmpPadPos l := by
  induction l with
  | nil => rfl
  | cons x xs ih =>
    simp only [cmpPadNeg, cmpPadPos]
    split_ifs <;> omega

theorem cmpParts_swap : ∀ (a b : List Int), cmpParts b a = -cmpParts a b := by
  intro a
  induction a with
  | nil =>
    intro b
    rw [cmpParts_nil_left, cmpParts_nil_right]
    have h := cmpPadNeg_eq_neg b
    omega
  | cons x xs ih =>
    intro b
    cases b with
    | nil =>
      rw [cmpParts_nil_left, cmpParts_nil_right]
      have h := cmpPadNeg_eq_neg (x :: xs)
      omega
    | cons y ys =>
      have h := ih ys
      simp only [cmpParts]
      split_ifs <;> omega

theorem cmpParts_total (a b : List Int) : cmpParts a b ≤ 0 ∨ cmpParts b a ≤ 0 := by
  rw [cmpParts_swap a b]
  omega

theorem latestCmp_le_trans (a b c : PkgVersionEntry) (h1 : latestCmp a b ≤ 0)
    (h2 : latestCmp b c ≤ 0) : latestCmp a c ≤ 0 := by
  cases ha : a.version with
  | none => cases hc : c.version <;> simp [latestCmp, ha, hc]
  | some va =>
    cases hb : b.version with
    | none => simp [latestCmp, ha, hb] at h1
    | some vb =>
      cases hc : c.version with
      | none => simp [latestCmp, hb, hc] at h2
      | some vc =>
        simp only [latestCmp, ha, hb, hc, compareVersionsTS] at h1 h2 ⊢
        exact cmpParts_le_trans _ _ _ h2 h1

theorem latestCmp_total (a b : PkgVersionEntry) :
    latestCmp a b ≤ 0 ∨ latestCmp b a ≤ 0 := by
  cases ha : a.version with
  | none => cases hb : b.version <;> simp [latestCmp, ha, hb]
  | some va =>
    cases hb : b.version with
    | none => simp [latestCmp, ha, hb]
    | some vb =>
      simp only [latestCmp, ha, hb, compareVersionsTS]
      exact cmpParts_total _ _

theorem mem_insertStable_of {cmp : α → α → Int} {a x : α} {l : List α}
    (h : x = a ∨ x ∈ l) : x ∈ insertStable cmp a l := by
  induction l with
  | nil =>
    rcases h with h | h
    · simp [insertStable, h]
    · simp at h
  | cons b rest ih =>
    by_cases hab : cmp a b ≤ 0
    · simp only [insertStable, if_pos hab]
      rcases h with h | h
      · simp [h]
      · exact List.mem_cons_of_mem _ h
    · simp only [insertStable, if_neg hab]
      rcases h with h | h
      · exact List.mem_cons_of_mem _ (ih (Or.inl h))
      · rcases List.mem_cons.1 h with h2 | h2
        · simp [h2]
        · exact List.mem_cons_of_mem _ (ih (Or.inr h2))

theorem mem_stableSortJs_of {cmp : α → α → Int} {x : α} {l : List α}
    (h : x ∈ l) : x ∈ stableSortJs cmp l := by
  induction l with
  | nil => simp at h
  | cons b rest ih =>
    simp only [stableSortJs, List.foldr_cons]
    rcases List.mem_cons.1 h with h2 | h2
    · exact mem_insertStable_of (Or.inl h2)
    · exact mem_insertStable_of (Or.inr (ih h2))

theorem insertStable_headOpt (cmp : α → α → Int) (a : α) (l : List α) :
    (insertStable cmp a l).head? = some a ∨ (insertStable cmp a l).head? = l.head? := by
  cases l with
  | nil => exact Or.inl rfl
  | cons b rest =>
    by_cases hab : cmp a b ≤ 0
    · simp only [insertStable, if_pos hab]
      exact Or.inl rfl
    · simp only [insertStable, if_neg hab]
      exact Or.inr rfl

theorem chain'_insertStable {cmp : α → α → Int}
    (htot : ∀ x y, cmp x y ≤ 0 ∨ cmp y x ≤ 0) (a : α) :
    ∀ l : List α, List.Chain' (fun x y => cmp x y ≤ 0) l →
      List.Chain' (fun x y => cmp x y ≤ 0) (insertStable cmp a l) := by
  intro l
  induction l with
  | nil => intro _; simp [insertStable]
  | cons b rest ih =>
    intro h
    by_cases hab : cmp a b ≤ 0
    · simp only [insertStable, if_pos hab]
      exact List.chain'_cons.2 ⟨hab, h⟩
    · simp only [insertStable, if_neg hab]
      have hins := ih h.tail
      refine List.chain'_cons'.2 ⟨?_, hins⟩
      intro h0 hh0
      rcases insertStable_headOpt cmp a rest with hh | hh
      · rw [hh] at hh0
        have ha0 : a = h0 := by simpa using hh0
        rw [← ha0]
        rcases htot a b with hc | hc
        · exact absurd hc hab
        · exact hc
      · rw [hh] at hh0
        exact (List.chain'_cons'.1 h).1 h0 hh0

theorem chain'_stableSortJs {cmp : α → α → Int}
    (htot : ∀ x y, cmp x y ≤ 0 ∨ cmp y x ≤ 0) (l : List α) :
    List.Chain' (fun x y => cmp x y ≤ 0) (stableSortJs cmp l) := by
  induction l with
  | nil => simp [stableSortJs]
  | cons b rest ih =>
    simp only [stableSortJs, List.foldr_cons]
    exact chain'_insertStable htot b _ ih

theorem chain'_head_le {cmp : α → α → Int}
    (htrans : ∀ x y z, cmp x y ≤ 0 → cmp y z ≤ 0 → cmp x z ≤ 0) :
    ∀ (xs : List α) (x y : α),
      List.Chain' (fun u v => cmp u v ≤ 0) (x :: xs) → y ∈ xs → cmp x y ≤ 0 := by
  intro xs
  induction xs with
  | nil => intro x y _ hy; simp at hy
  | cons b rest ih =>
    intro x y h hy
    have h1 : cmp x b ≤ 0 := (List.chain'_cons.1 h).1
    rcases List.mem_cons.1 hy with rfl | hy2
    · exact h1
    · exact htrans x b y h1 (ih b y (List.chain'_cons.1 h).2 hy2)

theorem sortJs_head_min {cmp : α → α → Int}
    (htrans : ∀ x y z, cmp x y ≤ 0 → cmp y z ≤ 0 → cmp x z ≤ 0)
    (htot : ∀ x y, cmp x y ≤ 0 ∨ cmp y x ≤ 0) (l : List α) (x : α)
    (hx : (stableSortJs cmp l).head? = some x) : ∀ y ∈ l, cmp x y ≤ 0 := by
  intro y hy
  have hys : y ∈ stableSortJs cmp l := mem_stableSortJs_of hy
  cases hs : stableSortJs cmp l with
  | nil => rw [hs] at hx; simp at hx
  | cons h0 t =>
    rw [hs] at hx
    injection hx with hx
    subst hx
    rw [hs] at hys
    rcases List.mem_cons.1 hys with rfl | hy2
    · rcases htot y y with hc | hc <;> exact hc
    · have hchain := chain'_stableSortJs htot l
      rw [hs] at hchain
      exact chain'_head_le htrans t h0 y hchain hy2

/-- The entry `getLatestVersion` picks is a maximum of its group under
the code's comparator (`latestCmp latest p ≤ 0` means `latest` sorts no
later than `p` in the descending order). -/
theorem getLatestVersionTS_min {pkgs : List PkgVersionEntry}
    {latest : PkgVersionEntry} (h : getLatestVersionTS pkgs = some latest) :
    ∀ p ∈ pkgs, latestCmp latest p ≤ 0 := by
  match pkgs with
  | [] => simp [getLatestVersionTS, stableSortJs] at h
  | [q] =>
    simp only [getLatestVersionTS] at h
    injection h with h
    subst h
    intro p hp
    have hq := List.mem_singleton.1 hp
    subst hq
    rcases latestCmp_total p p with hc | hc <;> exact hc
  | a :: b :: rest =>
    simp only [getLatestVersionTS] at h
    exact sortJs_head_min latestCmp_le_trans latestCmp_total (a :: b :: rest)
      latest h

/-! ## Concrete registries and inputs used by the counterexamples -/

/-- Registry entry for `a/x` with versions `2.0.0` and `1.5.0`. -/
def infoAX : PackageInfo := ⟨[⟨⟨2, 0, 0, []⟩, [], []⟩, ⟨⟨1, 5, 0, []⟩, [], []⟩]⟩

/-- Registry entry for `b/y@1.0.0` requiring `a/x: ^1.5.0`. -/
def infoBY : PackageInfo := ⟨[⟨⟨1, 0, 0, []⟩, [("a/x", .caret ⟨1, 5, 0, []⟩)], []⟩]⟩

/-- Registry snapshot for the aggregated-range scenario. -/
def regC1 : Registry := fun s =>
  if s = "a/x" then some infoAX else if s = "b/y" then some infoBY else none

/-- Direct requirements: `a/x: >=1.0.0` then `b/y: 1.0.0`. -/
def depsC1 : List (String × RangeT) :=
  [("a/x", .ge ⟨1, 0, 0, []⟩), ("b/y", .exact ⟨1, 0, 0, []⟩)]

/-- Registry entry for `p/q` whose first (highest) version is the
pre-release `2.0.0-rc.1`, followed by `1.0.0`. -/
def infoPQ : PackageInfo :=
  ⟨[⟨⟨2, 0, 0, [.str "rc", .num 1]⟩, [], []⟩, ⟨⟨1, 0, 0, []⟩, [], []⟩]⟩

/-- Registry snapshot with only `p/q`. -/
def regC3 : Registry := fun s => if s = "p/q" then some infoPQ else none

/-- Registry entry for `a/x` with versions `2.0.0` and `1.0.0`. -/
def infoAX5 : PackageInfo := ⟨[⟨⟨2, 0, 0, []⟩, [], []⟩, ⟨⟨1, 0, 0, []⟩, [], []⟩]⟩

/-- Registry entry for `b/y@1.0.0` requiring `a/x: ^1.0.0`. -/
def infoBY5 : PackageInfo := ⟨[⟨⟨1, 0, 0, []⟩, [("a/x", .caret ⟨1, 0, 0, []⟩)], []⟩]⟩

/-- Registry snapshot for the ordering scenario. -/
def regC5 : Registry := fun s =>
  if s = "a/x" then some infoAX5 else if s = "b/y" then some infoBY5 else none

/-- Direct requirements, `a/x` first. -/
def depsC5a : List (String × RangeT) :=
  [("a/x", RangeT.wildcard), ("b/y", RangeT.exact ⟨1, 0, 0, []⟩)]

/-- The same direct requirements, `b/y` first. -/
def depsC5b : List (String × RangeT) :=
  [("b/y", RangeT.exact ⟨1, 0, 0, []⟩), ("a/x", RangeT.wildcard)]

/-- Manifest with one dependency, for the lockfile scenarios. -/
def configC2 : JellyConfigL := ⟨"demo", "1.0.0", [("a/x", "1.0.0")], []⟩

/-- Lockfile whose `packages` map is empty but whose top-level
`dependencies` copy lists `a/x`. -/
def lockC2 : JellyLockfile := ⟨1, "demo", "1.0.0", [], [("a/x", "1.0.0")], []⟩

/-- Registry snapshot that knows no packages at all. -/
def regEmptyL : RegistryL := fun _ => none

/-- Manifest used by the lockfile-generation witness. -/
def configC9 : JellyConfigL := ⟨"demo", "0.1.0", [("owner/pkg", "^1.0.0")], []⟩

/-- `_Index` entry for the stable `roblox/roact@1.0.0`. -/
def pkgStable : PkgVersionEntry :=
  ⟨"roblox", "roact", some "1.0.0", "@self/roblox_roact", "roblox_roact"⟩

/-- `_Index` entry for the pre-release `roblox/roact@1.0.0-rc.1`. -/
def pkgRC : PkgVersionEntry :=
  ⟨"roblox", "roact", some "1.0.0-rc.1", "@self/roblox_roact@1.0.0-rc.1",
   "roblox_roact@1.0.0-rc.1"⟩

/-! ## Claim C1 -/

/-- C1 counterexample: with registry `regC1` and requirements `depsC1`,
the later requirer `b/y` demands `a/x: ^1.5.0`, which excludes the picked
`2.0.0`; the intersection of all ranges is non-empty with maximum
`1.5.0`, yet `resolveDependencyTree` leaves `a/x` at `2.0.0` and merely
records a conflict. -/
theorem resolve_tree_not_aggregated_counterexample :
    assocLookup (resolveDependencyTree regC1 10 depsC1).1 "a/x" =
      some ⟨⟨2, 0, 0, []⟩, infoAX⟩ ∧
    specAggregatedMax (infoAX.versions.map (·.version))
      [.ge ⟨1, 0, 0, []⟩, .caret ⟨1, 5, 0, []⟩] = some ⟨1, 5, 0, []⟩ ∧
    (⟨2, 0, 0, []⟩ : Version) ≠ ⟨1, 5, 0, []⟩ ∧
    (resolveDependencyTree regC1 10 depsC1).2 =
      [⟨"a/x", [⟨"b/y", .caret ⟨1, 5, 0, []⟩⟩], some ⟨2, 0, 0, []⟩⟩] := by
  decide

/-- C1 (amended): `resolveDependencyTree` resolves each package at its
first visit only, to the highest version satisfying that single range;
tree entries are write-once — a later requirer whose range excludes the
pick can only record a conflict carrying the existing version, never
re-resolve to the intersection. -/
theorem resolve_tree_write_once (reg : Registry) (fuel : Nat)
    (deps : List (String × RangeT)) (visited : List String)
    (tree : List (String × ResolvedVersion)) (chain : List String)
    (conflicts : List DependencyConflict) (id : String) (e : ResolvedVersion)
    (h1 : treeKeysVisited tree visited) (h2 : assocLookup tree id = some e) :
    assocLookup (rdtGo reg fuel deps visited tree chain conflicts).2.1 id =
      some e :=
  (rdtGo_invariant reg fuel deps visited tree chain conflicts h1).2.2 id e h2

/-- Witness for `resolve_tree_write_once` at a concrete state: `a/x`
already resolved to `2.0.0`, revisited under `^1.5.0`. -/
theorem resolve_tree_write_once_witness :
    assocLookup (rdtGo regC1 10 [("a/x", RangeT.caret ⟨1, 5, 0, []⟩)] ["a/x"]
      [("a/x", ⟨⟨2, 0, 0, []⟩, infoAX⟩)] [] []).2.1 "a/x" =
      some ⟨⟨2, 0, 0, []⟩, infoAX⟩ :=
  resolve_tree_write_once regC1 10 [("a/x", RangeT.caret ⟨1, 5, 0, []⟩)] ["a/x"]
    [("a/x", ⟨⟨2, 0, 0, []⟩, infoAX⟩)] [] [] "a/x" ⟨⟨2, 0, 0, []⟩, infoAX⟩
    (by
      intro k hk
      by_cases h : "a/x" = k
      · subst h; simp
      · simp [assocLookup, h] at hk)
    (by simp [assocLookup])

/-! ## Claim C2 -/

/-- C2 counterexample: `validateLockfile` accepts a lockfile whose
`packages` map is empty, because it checks the top-level `dependencies ∪
devDependencies` copies instead of `packages`. -/
theorem validateLockfile_packages_counterexample :
    validateLockfileL configC2 (some lockC2) = true ∧
    assocLookup lockC2.packages "a/x" = none := by
  decide

/-- C2 (amended): `validateLockfile(manifest)` returns true iff the
lockfile reads back (present, version 1) and every key of the manifest's
`dependencies ∪ devDependencies` has a truthy (present, non-empty) entry
in the lockfile's top-level `dependencies ∪ devDependencies`; the
`packages` map is never consulted. -/
theorem validateLockfile_checks_toplevel_deps (config : JellyConfigL)
    (lf : JellyLockfile) :
    validateLockfileL config (some lf) = true ↔
      (lf.lockfileVersion = 1 ∧
        ∀ kv ∈ mergeObj config.dependencies config.devDependencies,
          ∃ s, assocLookup (mergeObj lf.dependencies lf.devDependencies) kv.1 =
            some s ∧ s ≠ "") := by
  by_cases hv : lf.lockfileVersion = 1
  · have hread : readLockfileL (some lf) = some lf := by
      simp [readLockfileL, hv]
    simp only [validateLockfileL, hread, hv, true_and]
    rw [List.all_eq_true]
    constructor
    · intro h kv hkv
      have h2 := h kv hkv
      cases ho : assocLookup (mergeObj lf.dependencies lf.devDependencies) kv.1 with
      | none => rw [ho] at h2; simp [jsTruthyStr] at h2
      | some s =>
        rw [ho] at h2
        refine ⟨s, rfl, fun hEq => ?_⟩
        subst hEq
        exact absurd h2 (by decide)
    · intro h kv hkv
      obtain ⟨s, hs, hne⟩ := h kv hkv
      rw [hs]
      cases hEq : s.isEmpty with
      | true => exact absurd ((String.isEmpty_iff s).1 hEq) hne
      | false => simp [jsTruthyStr, hEq]
  · have hread : readLockfileL (some lf) = none := by
      simp [readLockfileL, hv]
    simp only [validateLockfileL, hread]
    simp [hv]

/-- Witness for `validateLockfile_checks_toplevel_deps` (claim C2) at the
concrete manifest and lockfile. -/
theorem validateLockfile_checks_toplevel_deps_witness :
    validateLockfileL configC2 (some lockC2) = true :=
  (validateLockfile_checks_toplevel_deps configC2 lockC2).2
    ⟨rfl, by
      intro kv hkv
      have hk := List.mem_singleton.1 hkv
      subst hk
      exact ⟨"1.0.0", by decide, by decide⟩⟩

/-! ## Claim C3 -/

/-- C3 counterexample: for the wildcard range, a pre-release first entry
of the registry's descending list is not chosen; `resolveVersion`
returns the highest non-pre-release version instead. -/
theorem resolveVersion_wildcard_prerelease_counterexample :
    resolveVersionR regC3 "p/q" .wildcard = some ⟨⟨1, 0, 0, []⟩, infoPQ⟩ ∧
    (infoPQ.versions.map (·.version)).head? =
      some ⟨2, 0, 0, [.str "rc", .num 1]⟩ ∧
    (⟨1, 0, 0, []⟩ : Version) ≠ ⟨2, 0, 0, [.str "rc", .num 1]⟩ := by
  decide

/-- C3 (amended): `resolveVersion` returns a version from the registry's
list that satisfies the range under node-semver semantics and is maximal
by SemVer precedence among the satisfying versions; under those semantics
the wildcard `*` admits exactly the versions without a pre-release tag,
so a pre-release first entry is skipped. -/
theorem resolveVersion_highest_satisfying (reg : Registry) (pkg : String)
    (r : RangeT) (v : Version) (info : PackageInfo)
    (h : resolveVersionR reg pkg r = some ⟨v, info⟩) :
    reg pkg = some info ∧
    v ∈ info.versions.map (·.version) ∧
    satisfies v r = true ∧
    (∀ w ∈ info.versions.map (·.version), satisfies w r = true →
      compareVer v w ≠ .lt) ∧
    (∀ u : Version, satisfies u .wildcard = u.pre.isEmpty) := by
  cases hreg : reg pkg with
  | none => simp [resolveVersionR, hreg] at h
  | some info2 =>
    cases hf : findBestMatch r (info2.versions.map (·.version)) with
    | none => simp [resolveVersionR, hreg, hf] at h
    | some v2 =>
      simp only [resolveVersionR, hreg, hf] at h
      injection h with h
      have hv : v2 = v := congrArg ResolvedVersion.version h
      have hinfo : info2 = info := congrArg ResolvedVersion.packageInfo h
      subst hv
      subst hinfo
      have spec := findBestMatch_spec r (info2.versions.map (·.version)) v2 hf
      exact ⟨rfl, spec.1, spec.2.1, spec.2.2, satisfies_wildcard⟩

/-- Witness for `resolveVersion_highest_satisfying` on `regC3` with the
range `>=1.0.0`. -/
theorem resolveVersion_highest_satisfying_witness :
    regC3 "p/q" = some infoPQ ∧
    (⟨1, 0, 0, []⟩ : Version) ∈ infoPQ.versions.map (·.version) ∧
    satisfies ⟨1, 0, 0, []⟩ (.ge ⟨1, 0, 0, []⟩) = true ∧
    (∀ w ∈ infoPQ.versions.map (·.version),
      satisfies w (.ge ⟨1, 0, 0, []⟩) = true →
        compareVer ⟨1, 0, 0, []⟩ w ≠ .lt) ∧
    (∀ u : Version, satisfies u .wildcard = u.pre.isEmpty) :=
  resolveVersion_highest_satisfying regC3 "p/q" (.ge ⟨1, 0, 0, []⟩)
    ⟨1, 0, 0, []⟩ infoPQ (by decide)

/-! ## Claim C5 -/

/-- C5 counterexample: permuting the two direct requirements changes the
final pick for `a/x` (`2.0.0` when `a/x` is processed first under `*`,
`1.0.0` when it is first reached through `b/y`'s `^1.0.0`). -/
theorem resolve_tree_order_counterexample :
    depsC5b.Perm depsC5a ∧
    assocLookup (resolveDependencyTree regC5 10 depsC5a).1 "a/x" =
      some ⟨⟨2, 0, 0, []⟩, infoAX5⟩ ∧
    assocLookup (resolveDependencyTree regC5 10 depsC5b).1 "a/x" =
      some ⟨⟨1, 0, 0, []⟩, infoAX5⟩ ∧
    (⟨2, 0, 0, []⟩ : Version) ≠ ⟨1, 0, 0, []⟩ := by
  refine ⟨List.Perm.swap _ _ _, by decide, by decide, by decide⟩

/-- C5 (amended): resolution is order-dependent (each package keeps the
version chosen at its first visit, see the counterexample); what holds
for every processing order is that every entry of the final map carries a
version drawn from its package's registry version list. -/
theorem resolve_tree_entries_sound (reg : Registry) (fuel : Nat)
    (deps : List (String × RangeT)) (id : String) (e : ResolvedVersion)
    (h : assocLookup (resolveDependencyTree reg fuel deps).1 id = some e) :
    e.version ∈ e.packageInfo.versions.map (·.version) := by
  have hgo := rdtGo_sound reg fuel deps [] [] [] []
    (fun id e he => by simp [assocLookup] at he)
  exact hgo id e h

/-- Witness for `resolve_tree_entries_sound` on the concrete ordering
scenario. -/
theorem resolve_tree_entries_sound_witness :
    (⟨2, 0, 0, []⟩ : Version) ∈ infoAX5.versions.map (·.version) :=
  resolve_tree_entries_sound regC5 10 depsC5a "a/x" ⟨⟨2, 0, 0, []⟩, infoAX5⟩
    (by decide)

/-! ## Claim C6 -/

/-- C6 counterexample: `writeLockfile`'s trace is not an atomic replace —
it contains no rename and writes `jelly-lock.json` directly. -/
theorem writeLockfile_not_atomic_counterexample :
    opsAtomicReplace (writeLockfileOps "/proj" "clayload") (lockfilePathOf "/proj") =
      false := by
  decide

/-- C6 (amended): `writeLockfile` ensures the parent directory and then
performs a single direct `writeFile` to `jelly-lock.json`; the trace
contains no temporary file and no rename, so a failure during the write
is not guarded by an atomic replace. -/
theorem writeLockfile_direct_write (projectPath content : String) :
    writeLockfileOps projectPath content =
      [FsOp.ensureDir (dirname (lockfilePathOf projectPath)),
       FsOp.writeFile (lockfilePathOf projectPath) content] ∧
    (writeLockfileOps projectPath content).all (fun op => !op.isRename) = true ∧
    (∀ p c, FsOp.writeFile p c ∈ writeLockfileOps projectPath content →
      p = lockfilePathOf projectPath) := by
  refine ⟨rfl, rfl, ?_⟩
  intro p c hm
  simp only [writeLockfileOps] at hm
  rcases List.mem_cons.1 hm with h | h
  · exact absurd h (by simp)
  · rcases List.mem_cons.1 h with h2 | h2
    · injection h2
    · exact absurd h2 (List.not_mem_nil _)

/-- Witness for `writeLockfile_direct_write` at a concrete project path. -/
theorem writeLockfile_direct_write_witness :
    ("/proj/jelly-lock.json" : String) = lockfilePathOf "/proj" :=
  (writeLockfile_direct_write "/proj" "payload").2.2 "/proj/jelly-lock.json"
    "payload" (by decide)

/-! ## Claim C7 -/

/-- C7 counterexample: the metadata and search requests carry no
`Wally-Version` header (`HTTP_HEADERS` lacks it; only downloads use
`DOWNLOAD_HEADERS`). -/
theorem registry_headers_counterexample :
    assocLookup (metadataRequest "roblox" "roact").headers "Wally-Version" =
      none ∧
    assocLookup (searchRequest "roact").headers "Wally-Version" = none := by
  decide

/-- C7 (amended): search and metadata requests carry
`User-Agent: jelly-cli/0.3.3`, `Accept: application/json` and
`Content-Type: application/json` but no `Wally-Version`; download
requests carry the user agent, `Accept: application/zip` and
`Wally-Version: 0.3.2`. -/
theorem registry_request_headers (q s n ver : String) :
    (searchRequest q).headers = HTTP_HEADERS ∧
    (metadataRequest s n).headers = HTTP_HEADERS ∧
    (downloadRequest s n ver).headers = DOWNLOAD_HEADERS ∧
    assocLookup HTTP_HEADERS "User-Agent" = some "jelly-cli/0.3.3" ∧
    assocLookup HTTP_HEADERS "Accept" = some "application/json" ∧
    assocLookup HTTP_HEADERS "Wally-Version" = none ∧
    assocLookup DOWNLOAD_HEADERS "User-Agent" = some "jelly-cli/0.3.3" ∧
    assocLookup DOWNLOAD_HEADERS "Accept" = some "application/zip" ∧
    assocLookup DOWNLOAD_HEADERS "Wally-Version" = some "0.3.2" := by
  refine ⟨rfl, rfl, rfl, ?_, ?_, ?_, ?_, ?_, ?_⟩ <;> decide

/-! ## Claim C8 -/

/-- C8 counterexample: with a stable `1.0.0` and a pre-release
`1.0.0-rc.1` sharing the leaf name, `getLatestVersion` picks the
pre-release (its dotted-numeric comparator parses `0-rc` as `0` and the
trailing `.1` as a fourth part), so the unversioned `roact.lua` shim
points at the pre-release even though SemVer precedence ranks it below
the stable release. -/
theorem alias_latest_prerelease_counterexample :
    getLatestVersionTS [pkgStable, pkgRC] = some pkgRC ∧
    compareVer ⟨1, 0, 0, [.str "rc", .num 1]⟩ ⟨1, 0, 0, []⟩ = .lt ∧
    aliasFilesFor "roact" [pkgStable, pkgRC] =
      [("roact_1_0_0.lua", "./_Index/roblox_roact"),
       ("roact_1_0_0_rc_1.lua", "./_Index/roblox_roact@1.0.0-rc.1"),
       ("roact.lua", "./_Index/roblox_roact@1.0.0-rc.1")] := by
  decide

/-- C8 (amended): when several `_Index` entries share a leaf name, one
versioned shim `{name}_{sanitized-version}.lua` is written per entry
(version sanitized by replacing every non-alphanumeric character with
`_`, `_unknown` when no version was recovered), and the unversioned
`{name}.lua` points at the entry chosen by `getLatestVersion` — a
maximum of the group under the numeric dotted comparator
`compareVersions` (missing versions ranked first), not under SemVer
precedence. -/
theorem generatePackageIndex_alias_spec (packageName : String)
    (pkgs : List PkgVersionEntry) (latest : PkgVersionEntry)
    (h2 : 2 ≤ pkgs.length) (hl : getLatestVersionTS pkgs = some latest) :
    latest ∈ pkgs ∧
    (∀ p ∈ pkgs, latestCmp latest p ≤ 0) ∧
    aliasFilesFor packageName pkgs =
      (pkgs.map fun pkg =>
        (packageName ++ (match pkg.version with
          | some v => "_" ++ sanitizeVersion v
          | none => "_unknown") ++ ".lua", "./_Index/" ++ pkg.packageDir))
      ++ [(packageName ++ ".lua", "./_Index/" ++ latest.packageDir)] := by
  match pkgs with
  | [] => exact absurd h2 (by decide)
  | [p] => exact absurd h2 (by simp)
  | a :: b :: rest =>
    refine ⟨getLatestVersionTS_mem hl, getLatestVersionTS_min hl, ?_⟩
    simp only [aliasFilesFor, hl]

/-- Witness for `generatePackageIndex_alias_spec` on the concrete
stable / pre-release group. -/
theorem generatePackageIndex_alias_spec_witness :
    pkgRC ∈ [pkgStable, pkgRC] ∧
    (∀ p ∈ [pkgStable, pkgRC], latestCmp pkgRC p ≤ 0) ∧
    aliasFilesFor "roact" [pkgStable, pkgRC] =
      ([pkgStable, pkgRC].map fun pkg =>
        ("roact" ++ (match pkg.version with
          | some v => "_" ++ sanitizeVersion v
          | none => "_unknown") ++ ".lua", "./_Index/" ++ pkg.packageDir))
      ++ [("roact" ++ ".lua", "./_Index/" ++ pkgRC.packageDir)] :=
  generatePackageIndex_alias_spec "roact" [pkgStable, pkgRC] pkgRC
    (by decide) (by decide)

/-! ## Claim C9 -/

/-- C9: `generateLockfile` copies the manifest's dependency maps verbatim
into the lockfile's top level and never fails on unresolvable packages
(the resolution loop catches and warns per package); consequently
`validateLockfile` accepts every freshly generated lockfile, whatever the
registry answered — even when a failed dependency has no entry in
`packages`. -/
theorem generateLockfile_always_validates (reg : RegistryL) (fuel : Nat)
    (config : JellyConfigL)
    (h1 : ∀ kv ∈ config.dependencies, kv.2 ≠ "")
    (h2 : ∀ kv ∈ config.devDependencies, kv.2 ≠ "") :
    (generateLockfileL reg fuel config).dependencies = config.dependencies ∧
    (generateLockfileL reg fuel config).devDependencies = config.devDependencies ∧
    validateLockfileL config (some (generateLockfileL reg fuel config)) = true := by
  refine ⟨rfl, rfl, ?_⟩
  have hread : readLockfileL (some (generateLockfileL reg fuel config)) =
      some (generateLockfileL reg fuel config) := rfl
  simp only [validateLockfileL, hread]
  simp only [generateLockfileL]
  rw [List.all_eq_true]
  intro kv hkv
  have hval : kv.2 ≠ "" := by
    rcases List.mem_append.1 (mem_mergeObj hkv) with h | h
    · exact h1 kv h
    · exact h2 kv h
  have hlook : assocLookup (mergeObj config.dependencies config.devDependencies)
      kv.1 = some kv.2 :=
    assocLookup_of_mem_nodup (mergeObj_keysNodup _ _) hkv
  rw [hlook]
  cases hEq : kv.2.isEmpty with
  | true => exact absurd ((String.isEmpty_iff kv.2).1 hEq) hval
  | false => simp [jsTruthyStr, hEq]

/-- Witness for `generateLockfile_always_validates`: a registry that
knows no packages at all still yields a lockfile that validates, and the
unresolvable dependency indeed has no entry in `packages`. -/
theorem generateLockfile_always_validates_witness :
    validateLockfileL configC9 (some (generateLockfileL regEmptyL 8 configC9)) =
      true ∧
    assocLookup (generateLockfileL regEmptyL 8 configC9).packages "owner/pkg" =
      none :=
  ⟨(generateLockfile_always_validates regEmptyL 8 configC9 (by decide)
      (by decide)).2.2,
   by decide⟩

/-! ## Claim C10 -/

/-- C10: an on-disk `_Index` directory name `{scope}_{name}` is decoded
by `split('_', 2)`: the pair is recovered exactly when neither the scope
nor the name contains an underscore; an underscore-free scope with an
underscore-carrying name yields the name truncated at its first
underscore (the first two split segments). -/
theorem installedPackages_dirName_split (scope name : String) :
    (recoverScopeName (scope ++ "_" ++ name) = (scope, name) ↔
      ('_' ∉ scope.toList ∧ '_' ∉ name.toList)) ∧
    ('_' ∉ scope.toList →
      recoverScopeName (scope ++ "_" ++ name) =
        (scope, ⟨name.toList.takeWhile (· ≠ '_')⟩)) := by
  have htl : (scope ++ "_" ++ name).toList =
      scope.toList ++ '_' :: name.toList := by
    simp [String.toList]
  have hrec : ∀ (h : '_' ∉ scope.toList),
      recoverScopeName (scope ++ "_" ++ name) =
        (scope, ⟨name.toList.takeWhile (· ≠ '_')⟩) := by
    intro h
    have hsplit : splitChar '_' ((scope ++ "_" ++ name).toList) =
        scope.toList :: splitChar '_' name.toList := by
      rw [htl]
      exact splitChar_append name.toList h
    cases hname : splitChar '_' name.toList with
    | nil => exact absurd hname (splitChar_ne_nil _ _)
    | cons n ns =>
      have hhead := splitChar_head '_' name.toList
      rw [hname] at hhead
      simp only [List.head?] at hhead
      injection hhead with hhead
      simp only [recoverScopeName, hsplit, hname, hhead]
      rfl
  constructor
  · constructor
    · intro hEq
      by_cases hs : '_' ∈ scope.toList
      · exfalso
        obtain ⟨x, y, hxy, hnx⟩ := exists_first_occ hs
        have hsplit : splitChar '_' ((scope ++ "_" ++ name).toList) =
            x :: splitChar '_' (y ++ '_' :: name.toList) := by
          rw [htl, hxy]
          have hassoc : (x ++ '_' :: y) ++ '_' :: name.toList =
              x ++ '_' :: (y ++ '_' :: name.toList) := by simp
          rw [hassoc]
          exact splitChar_append _ hnx
        cases hrest : splitChar '_' (y ++ '_' :: name.toList) with
        | nil => exact absurd hrest (splitChar_ne_nil _ _)
        | cons r rs =>
          rw [hrest] at hsplit
          have hform : recoverScopeName (scope ++ "_" ++ name) = (⟨x⟩, ⟨r⟩) := by
            simp only [recoverScopeName, hsplit]
          rw [hform] at hEq
          have hxs : (⟨x⟩ : String) = scope := congrArg Prod.fst hEq
          have hxd : x = scope.toList := congrArg String.data hxs
          rw [hxy] at hxd
          have hlen := congrArg List.length hxd
          simp only [List.length_append, List.length_cons] at hlen
          omega
      · refine ⟨hs, ?_⟩
        by_cases hn : '_' ∈ name.toList
        · exfalso
          have h2 := hrec hs
          rw [h2] at hEq
          have hns : (⟨name.toList.takeWhile (· ≠ '_')⟩ : String) = name :=
            congrArg Prod.snd hEq
          have h3 : name.toList.takeWhile (· ≠ '_') = name.toList :=
            congrArg String.data hns
          exact absurd (List.mem_takeWhile_imp (h3.symm ▸ hn)) (by simp)
        · exact hn
    · intro hpair
      obtain ⟨hs, hn⟩ := hpair
      have hsplit : splitChar '_' ((scope ++ "_" ++ name).toList) =
          scope.toList :: splitChar '_' name.toList := by
        rw [htl]
        exact splitChar_append name.toList hs
      rw [splitChar_no_sep hn] at hsplit
      simp only [recoverScopeName, hsplit]
      rfl
  · exact hrec

/-- Witness for `installedPackages_dirName_split` (claim C10): the
directory name `scope_my_pkg` decodes to `("scope", "my")`, truncating
the package name `my_pkg` at its underscore. -/
theorem installedPackages_dirName_split_witness :
    recoverScopeName ("scope" ++ "_" ++ "my_pkg") = ("scope", "my") := by
  have h := (installedPackages_dirName_split "scope" "my_pkg").2 (by decide)
  rw [h]
  decide

end Jelly
